import Mathlib

/-! A verification development for `cryptarithm` (`main.go`)

The program searches for a solution of an alphametic puzzle by random guessing
(`try`), races several such searches (`race`) and reports timing statistics
(`totalDuration`, `meanDuration`, `medianDuration`, ...).

The Go code is embedded shallowly:

* a one-character string (an element of `strings.Split(s, "")`) is a `Char`;
* `int`, `int64` and `time.Duration` are `Int` with explicit 64-bit wrap-around
  (`wrapInt`) at every addition the code performs;
* a `map[string]int` is an association list with Go's semantics for a missing
  key (the zero value);
* a run-time panic (index out of range, division by zero) is `none`;
* the values produced by `math/rand` are inputs: the raw value behind every
  `rand.Intn` call and the slice returned by `rand.Perm`;
* `sort.Slice` is known by its contract, a sorted permutation with ties in any
  order: on samples it is a parameter, on `int64` durations the contract fixes
  the result and insertion sort computes it.
-/

namespace Cryptarithm

/-! ## Machine integers -/

/-- Largest value of Go's 64-bit `int`. -/
def maxInt : Int := 2 ^ 63 - 1

/-- Smallest value of Go's 64-bit `int`. -/
def minInt : Int := -(2 ^ 63)

/-- Two's complement wrap-around of a mathematical integer into 64 bits. -/
def wrapInt (x : Int) : Int := (x + 2 ^ 63) % 2 ^ 64 - 2 ^ 63

/-! ## Library functions the program calls -/

/-- Go's `strings.Split(s, "")`: the characters of `s`, one per element. -/
def Split (s : String) : List Char := s.data

/-- Go's `strconv.FormatInt(v, 10)` for a non-negative `v`: its decimal digits. -/
def FormatInt (v : Nat) : List Char := Nat.toDigits 10 v

/-- The byte test of `strconv.Atoi`: `ch - '0'`, rejected when above 9. -/
def digitVal (c : Char) : Option Nat :=
  if 48 ≤ c.toNat ∧ c.toNat ≤ 57 then some (c.toNat - 48) else none

/-- The digit loop of `strconv.Atoi`: `n = n*10 + int(ch)`, over unbounded
naturals; the range check is made by `Atoi`. -/
def parseDigits : List Char → Nat → Option Nat
  | [], n => some n
  | c :: cs, n =>
    match digitVal c with
    | none => none
    | some d => parseDigits cs (n * 10 + d)

/-- Go's `strconv.Atoi` on a 64-bit platform, as the pair (value, `err != nil`).
A syntax error returns 0; a range error returns the nearest representable
value. -/
def Atoi (s : List Char) : Int × Bool :=
  match s with
  | [] => (0, true)
  | c :: cs =>
    let neg : Bool := decide (c = '-')
    let body : List Char := if c = '-' ∨ c = '+' then cs else s
    match body with
    | [] => (0, true)
    | _ :: _ =>
      match parseDigits body 0 with
      | none => (0, true)
      | some n =>
        if neg then
          (if (n : Int) ≤ 2 ^ 63 then (-(n : Int), false) else (minInt, true))
        else
          (if (n : Int) ≤ maxInt then ((n : Int), false) else (maxInt, true))

/-- Go's `rand.Intn(n)` for `n > 0`: some value in `[0, n)`, here the raw draw
`r` reduced modulo `n`. -/
def Intn (r n : Nat) : Nat := r % n

/-- The slice assignment `xs[i], xs[j] = xs[j], xs[i]`; `none` when an index is
out of range. -/
def swapAt {α : Type} (xs : List α) (i j : Nat) : Option (List α) :=
  match xs[i]?, xs[j]? with
  | some a, some b => some ((xs.set i b).set j a)
  | _, _ => none

/-- The slice assignment `xs[i], xs[j] = xs[j], xs[i]` with a signed index `j`;
`none` (a panic) when `j` is negative or an index is past the end. -/
def swapAtInt {α : Type} (xs : List α) (i : Nat) (j : Int) : Option (List α) :=
  if j < 0 then none else swapAt xs i j.toNat

/-! ## Data model -/

/-- Go's `map[string]int` keyed by one-character strings. -/
abbrev Mapping := List (Char × Nat)

/-- The read `mapping[k]`: the stored value, or 0 for a missing key. -/
def mapGet : Mapping → Char → Nat
  | [], _ => 0
  | (k', v) :: rest, k => if k' = k then v else mapGet rest k

/-- The write `mapping[k] = v`. -/
def mapSet : Mapping → Char → Nat → Mapping
  | [], k, v => [(k, v)]
  | (k', v') :: rest, k, v =>
    if k' = k then (k', v) :: rest else (k', v') :: mapSet rest k v

/-- The keys of a map. -/
def mapKeys (m : Mapping) : List Char := m.map Prod.fst

/-- Go's `len(mapping)`. -/
def mapLen (m : Mapping) : Nat := m.length

/-- The Go struct `Result`. -/
structure Result where
  mapping : Mapping
  seed : Int
deriving DecidableEq, Repr

/-- The Go struct `Sample`; `runTime` is a `time.Duration` (an `int64`). -/
structure Sample where
  result : Result
  runTime : Int
deriving DecidableEq, Repr

/-! ## `uniqueStrings` and `shuffleStrings` -/

/-- The loop of `uniqueStrings`: `m` is the key set of the Go map `m`,
`output` the slice built so far. -/
def uniqueStringsLoop : List Char → List Char → List Char → List Char
  | [], _, output => output
  | val :: rest, m, output =>
    if val ∈ m then uniqueStringsLoop rest m output
    else uniqueStringsLoop rest (val :: m) (output ++ [val])

/-- Go's `uniqueStrings`. -/
def uniqueStrings (input : List Char) : List Char :=
  uniqueStringsLoop input [] []

/-- The loop of `shuffleStrings` from index `i` on, for `k` more iterations;
`rnd i` is the raw draw behind `rand.Intn(i + 1)`. -/
def shuffleLoop (rnd : Nat → Nat) : Nat → Nat → List Char → Option (List Char)
  | 0, _, shuffled => some shuffled
  | k + 1, i, shuffled =>
    match swapAt shuffled i (Intn (rnd i) (i + 1)) with
    | none => none
    | some s => shuffleLoop rnd k (i + 1) s

/-- Go's `shuffleStrings`. -/
def shuffleStrings (input : List Char) (rnd : Nat → Nat) : Option (List Char) :=
  shuffleLoop rnd input.length 0 input

/-! ## The search worker `try` -/

/-- The random values one iteration of the retry loop consumes: `rnd i` is the
raw draw behind the call `rand.Intn(i + 1)` of the shuffle, and `perm n` is the
slice the call `rand.Perm(n)` returns. -/
structure Draw where
  rnd : Nat → Nat
  perm : Nat → List Nat

/-- The loop over `words` that fills `firstLetters` and `allChars`; `none` when
a word is empty (`wordChars[0]` panics). -/
def collectLoop : List String → List Char → List Char → Option (List Char × List Char)
  | [], firstLetters, allChars => some (firstLetters, allChars)
  | word :: rest, firstLetters, allChars =>
    match Split word with
    | [] => none
    | c :: cs => collectLoop rest (firstLetters ++ [c]) (allChars ++ c :: cs)

/-- The preamble of the closure returned by `try`: the key set of
`firstLetters` and the slice `allChars`. -/
def prepare (words : List String) (answer : String) : Option (List Char × List Char) :=
  match Split answer with
  | [] => none
  | a :: as =>
    match collectLoop words [a] [] with
    | none => none
    | some (firstLetters, allChars) =>
      some (firstLetters, uniqueStrings (allChars ++ a :: as))

/-- The digit range: `length := 9; if shuffledLen > length { length = shuffledLen }`. -/
def permLength (shuffledLen : Nat) : Nat :=
  if shuffledLen > 9 then shuffledLen else 9

/-- The zero-swap repair of one loop iteration: the statement
`if ok && nums[i] == 0 { addr := 1; if i+addr > len(nums)-1 { addr = -1 };
nums[i], nums[i+addr] = nums[i+addr], nums[i] }`, returning the slice `nums`
after it. -/
def repair (firstLetters : List Char) (val : Char) (i : Nat) (nums : List Nat) :
    Option (List Nat) :=
  match nums[i]? with
  | none => none
  | some v =>
    if val ∈ firstLetters ∧ v = 0 then
      let addr : Int := if (i : Int) + 1 > (nums.length : Int) - 1 then -1 else 1
      swapAtInt nums i ((i : Int) + addr)
    else some nums

/-- The loop `for i, val := range shuffled` with the zero-swap repair and the
write `mapping[val] = nums[i]`, from index `i` on. -/
def assignLoop (firstLetters : List Char) :
    List Char → Nat → List Nat → Mapping → Option (List Nat × Mapping)
  | [], _, nums, mapping => some (nums, mapping)
  | val :: rest, i, nums, mapping =>
    match repair firstLetters val i nums with
    | none => none
    | some nums1 =>
      match nums1[i]? with
      | none => none
      | some w => assignLoop firstLetters rest (i + 1) nums1 (mapSet mapping val w)

/-- The digit assignment of one iteration: the mapping built from the shuffled
letters and the permutation. -/
def assign (firstLetters shuffled : List Char) (nums : List Nat) : Option Mapping :=
  match assignLoop firstLetters shuffled 0 nums [] with
  | none => none
  | some (_, mapping) => some mapping

/-- The decimal numeral of a word: the `bytes.Buffer` filled with
`strconv.FormatInt(int64(mapping[char]), 10)` for each character. -/
def numeral (mapping : Mapping) : List Char → List Char
  | [] => []
  | c :: cs => FormatInt (mapGet mapping c) ++ numeral mapping cs

/-- The loop "Build the sum": the slice `sum` of the addends that are kept. -/
def buildSum (mapping : Mapping) : List String → List Int → Option (List Int)
  | [], sum => some sum
  | word :: rest, sum =>
    match numeral mapping (Split word) with
    | [] => none
    | c :: cs =>
      if c = '0' then buildSum mapping rest sum
      else
        let num := (Atoi (c :: cs)).1
        if num ≠ 0 then buildSum mapping rest (sum ++ [num])
        else buildSum mapping rest sum

/-- The loop `guess += num` over 64-bit integers. -/
def guessOf (sum : List Int) : Int :=
  sum.foldl (fun guess num => wrapInt (guess + num)) 0

/-- How one iteration of a Go loop body ends. -/
inductive Iter where
  | ret (r : Result)
  | cont
  | crash
deriving DecidableEq, Repr

/-- The part of the loop body after the size check: build the sum, build the
expected answer, compare. -/
def evaluate (mapping : Mapping) (words : List String) (answerChars : List Char) :
    Option Bool :=
  match buildSum mapping words [] with
  | none => none
  | some sum =>
    let (expectedAnswer, err) := Atoi (numeral mapping answerChars)
    if err then some false
    else some (decide (guessOf sum = expectedAnswer))

/-- One iteration of the retry loop `for { ... }` of `try`. -/
def attempt (seed : Int) (words : List String) (answerChars firstLetters allChars : List Char)
    (d : Draw) : Iter :=
  match shuffleStrings allChars d.rnd with
  | none => Iter.crash
  | some shuffled =>
    let nums := d.perm (permLength shuffled.length)
    match assign firstLetters shuffled nums with
    | none => Iter.crash
    | some mapping =>
      if mapLen mapping ≠ allChars.length then Iter.cont
      else
        match evaluate mapping words answerChars with
        | none => Iter.crash
        | some true => Iter.ret ⟨mapping, seed⟩
        | some false => Iter.cont

/-- The retry loop run over a finite supply of draws: the first `return`, a
crash, or `cont` when the supply is used up with every draw rejected. -/
def retryLoop (seed : Int) (words : List String) (answerChars firstLetters allChars : List Char) :
    List Draw → Iter
  | [] => Iter.cont
  | d :: ds =>
    match attempt seed words answerChars firstLetters allChars d with
    | Iter.cont => retryLoop seed words answerChars firstLetters allChars ds
    | out => out

/-- The closure returned by `try(i, words, answer)`, called once, with `now`
the value of `time.Now().UnixNano()`. -/
def try_ (now i : Int) (words : List String) (answer : String) (draws : List Draw) : Iter :=
  let seed := wrapInt (now * i)
  match prepare words answer with
  | none => Iter.crash
  | some (firstLetters, allChars) =>
    retryLoop seed words (Split answer) firstLetters allChars draws

/-! ## Statistics -/

/-- The contract of Go's `sort.Slice(sorted, less)` from the standard library:
afterwards the slice is a permutation of what it was and no element is `less`
than an element before it. The sort is not stable: the contract says nothing of
the order of elements that compare equal. -/
def SortSliceContract {α : Type} (less : α → α → Bool) (input output : List α) : Prop :=
  output.Perm input ∧ output.Pairwise (fun a b => less b a = false)

/-- Insertion of `x` into a list sorted by `less`, before the first element
that is not `less` than `x`. -/
def insertLess {α : Type} (less : α → α → Bool) (x : α) : List α → List α
  | [] => [x]
  | y :: ys => if less y x then y :: insertLess less x ys else x :: y :: ys

/-- Insertion sort by `less`: one function that meets the contract of Go's
`sort.Slice` (`SortSliceContract`). It keeps equal elements in their original
order, which `sort.Slice` does not promise, so it stands for `sort.Slice` only
where the contract fixes the result: on slices of `int64` values. -/
def insertionSort {α : Type} (less : α → α → Bool) : List α → List α
  | [] => []
  | x :: xs => insertLess less x (insertionSort less xs)

/-- Go's `sortDurations`: `sort.Slice` on a copy of the durations. A sorted
permutation of integers is unique, so the slice `sort.Slice` leaves is the one
insertion sort computes (`sortDurations_of_contract`). -/
def sortDurations (durations : List Int) (asc : Bool) : List Int :=
  insertionSort (fun a b => if asc then decide (a < b) else decide (a > b)) durations

/-- Go's `fastestDuration`; `none` is the panic of `[0]` on an empty slice. -/
def fastestDuration (durations : List Int) : Option Int :=
  (sortDurations durations true)[0]?

/-- Go's `slowestDuration`. -/
def slowestDuration (durations : List Int) : Option Int :=
  (sortDurations durations false)[0]?

/-- Go's `totalDuration`: the loop `totalDuration += duration` on `int64`. -/
def totalDuration (durations : List Int) : Int :=
  durations.foldl (fun total duration => wrapInt (total + duration)) 0

/-- Go's `meanDuration`; `none` is the division by zero on an empty slice. -/
def meanDuration (durations : List Int) : Option Int :=
  let total := durations.foldl (fun total duration => wrapInt (total + duration)) 0
  if durations.length = 0 then none
  else some (Int.tdiv total (durations.length : Int))

/-- Go's `medianDuration`; `none` is an index out of range. -/
def medianDuration (durations : List Int) : Option Int :=
  let sorted := sortDurations durations true
  let size := sorted.length
  if size % 2 = 0 then
    match sorted[size / 2]?, sorted[size / 2 + 1]? with
    | some a, some b => some (Int.tdiv (wrapInt (a + b)) 2)
    | _, _ => none
  else sorted[size / 2]?

/-- The closure `less` of `sortSamples`, on the two elements it compares. -/
def sampleLess (asc : Bool) (a b : Sample) : Bool :=
  if asc then decide (a.runTime < b.runTime) else decide (a.runTime > b.runTime)

/-- Go's `sortSamples`. Samples with equal run times are different values and
`sort.Slice` is not stable, so the library call is the parameter `sort`, known
only through `SortSliceContract`. -/
def sortSamples (sort : (Sample → Sample → Bool) → List Sample → List Sample)
    (samples : List Sample) (asc : Bool) : List Sample :=
  sort (sampleLess asc) samples

/-- Go's `fastestSample`; `none` is the panic of `[0]` on an empty slice. -/
def fastestSample (sort : (Sample → Sample → Bool) → List Sample → List Sample)
    (samples : List Sample) : Option Sample :=
  (sortSamples sort samples true)[0]?

/-- Go's `slowestSample`. -/
def slowestSample (sort : (Sample → Sample → Bool) → List Sample → List Sample)
    (samples : List Sample) : Option Sample :=
  (sortSamples sort samples false)[0]?

/-! ## The properties the specification states, in its own words -/

/-- The positional base-10 value of a digit sequence:
the sum of `d_k * 10^(len-1-k)`. -/
def positional : List Nat → Nat
  | [] => 0
  | d :: ds => d * 10 ^ ds.length + positional ds

/-- The digit sequence of a word under a mapping. -/
def digitsOf (mapping : Mapping) (word : List Char) : List Nat :=
  word.map (mapGet mapping)

/-- The base-10 value of a word under a mapping. -/
def wordValue (mapping : Mapping) (word : String) : Nat :=
  positional (digitsOf mapping (Split word))

/-- Whether the specification includes an addend word in the sum: its first
mapped digit is not 0. -/
def included (mapping : Mapping) (word : String) : Bool :=
  decide ((digitsOf mapping (Split word)).head? ≠ some 0)

/-- The sum the specification gives the evaluator: the values of exactly those
addend words whose first mapped digit is not 0. -/
def includedSum (mapping : Mapping) (words : List String) : Nat :=
  ((words.filter (included mapping)).map (wordValue mapping)).sum

/-- The letters of a puzzle in order of occurrence, repetitions included: those
of the words, then those of the target. -/
def puzzleLetters (words : List String) (answer : String) : List Char :=
  (words.map Split).flatten ++ Split answer

/-- The no-leading-zero set of a puzzle: the first letters of the target and of
the words. -/
def leadingLetters (words : List String) (answer : String) : List Char :=
  (answer :: words).filterMap (fun w => (Split w).head?)

/-- Distinct letters of the puzzle get distinct values. -/
def DistinctDigits (words : List String) (answer : String) (mapping : Mapping) : Prop :=
  ∀ a ∈ puzzleLetters words answer, ∀ b ∈ puzzleLetters words answer,
    a ≠ b → mapGet mapping a ≠ mapGet mapping b

/-- Every letter of the puzzle gets a decimal digit. -/
def DecimalDigits (words : List String) (answer : String) (mapping : Mapping) : Prop :=
  ∀ a ∈ puzzleLetters words answer, mapGet mapping a ≤ 9

/-- No leading letter of a word or of the target gets zero. -/
def NoLeadingZero (words : List String) (answer : String) (mapping : Mapping) : Prop :=
  ∀ w ∈ answer :: words, ∀ c ∈ (Split w).head?, mapGet mapping c ≠ 0

/-- The base-10 values of all the words add up to the value of the target. -/
def SumMatches (words : List String) (answer : String) (mapping : Mapping) : Prop :=
  (words.map (wordValue mapping)).sum = wordValue mapping answer

/-- A valid alphametic solution, as the specification defines it: distinct
letters get distinct decimal digits, no leading letter of a word or of the
target gets zero, and the words' values add up to the target's value. -/
def ValidSolution (words : List String) (answer : String) (mapping : Mapping) : Prop :=
  DistinctDigits words answer mapping ∧ DecimalDigits words answer mapping ∧
  NoLeadingZero words answer mapping ∧ SumMatches words answer mapping

/-! ## The configuration of `main` -/

/-- The slice `words` of `main`. -/
def mainWords : List String := ["alas", "lass", "no", "more"]

/-- The string `answer` of `main`. -/
def mainAnswer : String := "cash"

/-- The letters of a list in first-occurrence order, as the specification
describes the letter list: every letter is kept where it first occurs and
dropped at each later occurrence. -/
def firstOccurrences : List Char → List Char
  | [] => []
  | c :: cs => c :: (firstOccurrences cs).filter (fun x => decide (x ≠ c))

/-- The loop "Build the sum" without the leading-zero skip and without the
`num != 0` test: an evaluator that adds every addend word unconditionally, the
evaluator the skip rule is compared with. -/
def buildSumAll (mapping : Mapping) : List String → List Int → List Int
  | [], sum => sum
  | word :: rest, sum =>
    buildSumAll mapping rest (sum ++ [(Atoi (numeral mapping (Split word))).1])

/-- The verdict of the evaluator that adds every addend word unconditionally. -/
def evaluateAll (mapping : Mapping) (words : List String) (answerChars : List Char) : Bool :=
  let (expectedAnswer, err) := Atoi (numeral mapping answerChars)
  if err then false
  else decide (guessOf (buildSumAll mapping words []) = expectedAnswer)

/-- Whether the repair at index `i` takes its previous-index branch: the letter
is a leading letter, `nums[i]` is 0 and `i+addr > len(nums)-1`, so `addr = -1`. -/
def takesPrevious (firstLetters : List Char) (val : Char) (i : Nat) (nums : List Nat) :
    Bool :=
  match nums[i]? with
  | none => false
  | some v =>
    decide (val ∈ firstLetters ∧ v = 0 ∧ (i : Int) + 1 > (nums.length : Int) - 1)

/-- Whether some iteration of the assignment loop, from index `i` on, takes the
previous-index branch of the repair. -/
def anyPrevious (firstLetters : List Char) : List Char → Nat → List Nat → Bool
  | [], _, _ => false
  | val :: rest, i, nums =>
    takesPrevious firstLetters val i nums ||
      (match repair firstLetters val i nums with
        | none => false
        | some nums1 => anyPrevious firstLetters rest (i + 1) nums1)

/-! ## The global source of `math/rand`

`rand.Seed`, `rand.Intn` and `rand.Perm` are the package-level functions: they
all act on the one process-wide source. Its state is the list of draws it will
hand out from now on; `gen seed` is the list it holds right after
`rand.Seed(seed)`. -/

/-- The outer part of `try(i, words, answer)`, up to the `return` of the
closure: it computes `seed` and calls `rand.Seed(seed)`, which replaces the
state of the global source whatever it was. Returns the seed the closure
captures and the new state of the global source. -/
def tryCreate (gen : Int → List Draw) (now i : Int) (_globalSource : List Draw) :
    Int × List Draw :=
  let seed := wrapInt (now * i)
  (seed, gen seed)

/-- The closure returned by `try`, run to its end on the global source in the
state `globalSource`. -/
def tryRun (seed : Int) (words : List String) (answer : String)
    (globalSource : List Draw) : Iter :=
  match prepare words answer with
  | none => Iter.crash
  | some (firstLetters, allChars) =>
    retryLoop seed words (Split answer) firstLetters allChars globalSource

/-- The schedule of `race` with two contestants in which goroutine 1 evaluates
`try(1, ...)`, then goroutine 2 evaluates `try(2, ...)`, then goroutine 1 runs
its closure: the outcome of worker 1. -/
def workerOneAfterWorkerTwo (gen : Int → List Draw) (now1 now2 : Int)
    (words : List String) (answer : String) (globalSource : List Draw) : Iter :=
  let (seed1, g1) := tryCreate gen now1 1 globalSource
  let (_, g2) := tryCreate gen now2 2 g1
  tryRun seed1 words answer g2

/-- Worker 1 created and run with no other worker in between. -/
def workerOneAlone (gen : Int → List Draw) (now1 : Int)
    (words : List String) (answer : String) (globalSource : List Draw) : Iter :=
  let (seed1, g1) := tryCreate gen now1 1 globalSource
  tryRun seed1 words answer g1

/-! ## Lemmas on slices and maps -/

theorem swapAt_eq_some {α : Type} (xs : List α) {i j : Nat}
    (hi : i < xs.length) (hj : j < xs.length) :
    swapAt xs i j = some ((xs.set i xs[j]).set j xs[i]) := by
  unfold swapAt
  rw [List.getElem?_eq_getElem hi, List.getElem?_eq_getElem hj]

theorem swapAt_length {α : Type} {xs ys : List α} {i j : Nat}
    (h : swapAt xs i j = some ys) : ys.length = xs.length := by
  unfold swapAt at h
  split at h
  · injection h with h
    subst h
    simp
  · exact absurd h (by simp)

theorem swapAt_bounds {α : Type} {xs ys : List α} {i j : Nat}
    (h : swapAt xs i j = some ys) : i < xs.length ∧ j < xs.length := by
  unfold swapAt at h
  split at h
  · rename_i a b ha hb
    exact ⟨(List.getElem?_eq_some_iff.mp ha).1, (List.getElem?_eq_some_iff.mp hb).1⟩
  · exact absurd h (by simp)

theorem swapAt_getElem? {α : Type} {xs ys : List α} {i j : Nat}
    (h : swapAt xs i j = some ys) (k : Nat) :
    ys[k]? = if k = j then xs[i]? else if k = i then xs[j]? else xs[k]? := by
  obtain ⟨hi, hj⟩ := swapAt_bounds h
  rw [swapAt_eq_some xs hi hj] at h
  injection h with h
  subst h
  simp only [List.getElem?_set, List.length_set]
  by_cases hkj : k = j
  · subst hkj
    simp [hj]
  · by_cases hki : k = i
    · subst hki
      simp [hi, Ne.symm hkj, hkj]
    · simp [hkj, hki, Ne.symm hkj, Ne.symm hki]

theorem set_getElem_same {α : Type} (xs : List α) (i : Nat) (h : i < xs.length) :
    xs.set i xs[i] = xs := by
  apply List.ext_getElem?
  intro k
  rw [List.getElem?_set]
  by_cases hk : i = k
  · subst hk
    simp [h]
  · simp [hk]

theorem swapAt_perm {α : Type} [DecidableEq α] {xs ys : List α} {i j : Nat}
    (h : swapAt xs i j = some ys) : ys.Perm xs := by
  obtain ⟨hi, hj⟩ := swapAt_bounds h
  rw [swapAt_eq_some xs hi hj] at h
  injection h with h
  subst h
  rw [List.perm_iff_count]
  intro b
  by_cases hij : i = j
  · subst hij
    rw [List.set_set, set_getElem_same xs i hi]
  · have hj' : j < (xs.set i xs[j]).length := by simpa using hj
    rw [List.count_set _ _ _ _ hj', List.count_set _ _ _ _ hi]
    have e : (xs.set i xs[j])[j] = xs[j] := by
      rw [List.getElem_set]
      simp [hij]
    rw [e]
    have hpos : (xs[i] == b) = true → 0 < List.count b xs := by
      intro hb
      have : xs[i] = b := by simpa using hb
      rw [List.count_pos_iff]
      exact this ▸ List.getElem_mem hi
    rcases Bool.eq_false_or_eq_true (xs[i] == b) with h1 | h1 <;>
      rcases Bool.eq_false_or_eq_true (xs[j] == b) with h2 | h2
    · have := hpos h1
      simp only [h1, h2, if_true]
      omega
    · have := hpos h1
      simp only [h1, h2, if_true, Bool.false_eq_true, if_false]
      omega
    · simp only [h1, h2, if_true, Bool.false_eq_true, if_false]
      omega
    · simp only [h1, h2, Bool.false_eq_true, if_false]
      omega

theorem mapGet_mapSet (m : Mapping) (k : Char) (v : Nat) (c : Char) :
    mapGet (mapSet m k v) c = if k = c then v else mapGet m c := by
  induction m with
  | nil => simp [mapSet, mapGet]
  | cons p rest ih =>
    obtain ⟨k', v'⟩ := p
    by_cases h : k' = k
    · subst h
      by_cases hc : k' = c <;> simp [mapSet, mapGet, hc]
    · by_cases hc : k' = c
      · subst hc
        simp [mapSet, mapGet, h, Ne.symm h]
      · simp [mapSet, mapGet, h, hc, ih]

theorem mapKeys_mapSet_new (m : Mapping) (k : Char) (v : Nat) (h : k ∉ mapKeys m) :
    mapKeys (mapSet m k v) = mapKeys m ++ [k] := by
  induction m with
  | nil => simp [mapSet, mapKeys]
  | cons p rest ih =>
    obtain ⟨k', v'⟩ := p
    have hk : k' ≠ k := by
      intro e
      apply h
      simp [mapKeys, e]
    have hr : k ∉ mapKeys rest := by
      intro e
      apply h
      simp only [mapKeys, List.map_cons, List.mem_cons]
      exact Or.inr e
    have := ih hr
    simp only [mapKeys] at this ⊢
    simp [mapSet, hk, this]

theorem mapLen_eq_keys (m : Mapping) : mapLen m = (mapKeys m).length := by
  simp [mapLen, mapKeys]

theorem mapGet_mem_or_zero (m : Mapping) (c : Char) :
    (c, mapGet m c) ∈ m ∨ (c ∉ mapKeys m ∧ mapGet m c = 0) := by
  induction m with
  | nil => simp [mapGet, mapKeys]
  | cons p rest ih =>
    obtain ⟨k', v'⟩ := p
    by_cases h : k' = c
    · subst h
      simp [mapGet]
    · rcases ih with ih | ⟨ih1, ih2⟩
      · left
        simp [mapGet, h, ih]
      · right
        simp only [mapKeys] at ih1
        simp [mapGet, h, mapKeys, ih1, ih2, Ne.symm h]

/-! ## `uniqueStrings` and `shuffleStrings` -/

theorem uniqueStringsLoop_spec (input m output : List Char)
    (hm : ∀ c, c ∈ m ↔ c ∈ output) (hn : output.Nodup) :
    (uniqueStringsLoop input m output).Nodup ∧
    ∀ c, c ∈ uniqueStringsLoop input m output ↔ c ∈ output ∨ c ∈ input := by
  induction input generalizing m output with
  | nil => simp [uniqueStringsLoop, hn]
  | cons val rest ih =>
    unfold uniqueStringsLoop
    by_cases hv : val ∈ m
    · simp only [hv, if_true]
      obtain ⟨h1, h2⟩ := ih m output hm hn
      refine ⟨h1, fun c => ?_⟩
      rw [h2 c]
      have := (hm val).mp hv
      constructor
      · rintro (h | h)
        · exact Or.inl h
        · exact Or.inr (List.mem_cons_of_mem _ h)
      · rintro (h | h)
        · exact Or.inl h
        · rcases List.mem_cons.mp h with h | h
          · exact Or.inl (h ▸ this)
          · exact Or.inr h
    · simp only [hv, if_false]
      have hvo : val ∉ output := fun h => hv ((hm val).mpr h)
      have hm' : ∀ c, c ∈ val :: m ↔ c ∈ output ++ [val] := by
        intro c
        simp [hm c, or_comm]
      have hn' : (output ++ [val]).Nodup := by
        rw [List.nodup_append]
        refine ⟨hn, List.nodup_singleton _, ?_⟩
        intro a ha hb
        rw [List.mem_singleton] at hb
        exact hvo (hb ▸ ha)
      obtain ⟨h1, h2⟩ := ih (val :: m) (output ++ [val]) hm' hn'
      refine ⟨h1, fun c => ?_⟩
      rw [h2 c]
      simp only [List.mem_append, List.mem_singleton, List.mem_cons]
      tauto

theorem uniqueStrings_nodup (input : List Char) : (uniqueStrings input).Nodup :=
  (uniqueStringsLoop_spec input [] [] (by simp) List.nodup_nil).1

theorem mem_uniqueStrings (input : List Char) (c : Char) :
    c ∈ uniqueStrings input ↔ c ∈ input := by
  have := (uniqueStringsLoop_spec input [] [] (by simp) List.nodup_nil).2 c
  simpa [uniqueStrings] using this

theorem shuffleLoop_perm (rnd : Nat → Nat) (k i : Nat) (s : List Char)
    (h : i + k ≤ s.length) :
    ∃ t, shuffleLoop rnd k i s = some t ∧ t.Perm s := by
  induction k generalizing i s with
  | zero => exact ⟨s, rfl, List.Perm.refl _⟩
  | succ k ih =>
    have hi : i < s.length := by omega
    have hj : Intn (rnd i) (i + 1) < s.length := by
      have : Intn (rnd i) (i + 1) < i + 1 := Nat.mod_lt _ (Nat.succ_pos i)
      omega
    have hs := swapAt_eq_some s hi hj
    have hp := swapAt_perm hs
    have hl := swapAt_length hs
    obtain ⟨t, ht, htp⟩ := ih (i + 1) _ (by rw [hl]; omega)
    refine ⟨t, ?_, htp.trans hp⟩
    unfold shuffleLoop
    rw [hs]
    exact ht

theorem shuffleStrings_perm (input : List Char) (rnd : Nat → Nat) :
    ∃ t, shuffleStrings input rnd = some t ∧ t.Perm input :=
  shuffleLoop_perm rnd input.length 0 input (by omega)


/-! ## The digit assignment loop -/

theorem swapAtInt_perm {α : Type} [DecidableEq α] {xs ys : List α} {i : Nat} {j : Int}
    (h : swapAtInt xs i j = some ys) : ys.Perm xs := by
  unfold swapAtInt at h
  by_cases hj : j < 0
  · rw [if_pos hj] at h
    exact absurd h (by simp)
  · rw [if_neg hj] at h
    exact swapAt_perm h

theorem repair_perm {fl : List Char} {val : Char} {i : Nat} {nums nums1 : List Nat}
    (h : repair fl val i nums = some nums1) : nums1.Perm nums := by
  unfold repair at h
  cases hv : nums[i]? with
  | none =>
    rw [hv] at h
    exact absurd h (by simp)
  | some v =>
    rw [hv] at h
    by_cases hc : val ∈ fl ∧ v = 0
    · simp only [if_pos hc] at h
      exact swapAtInt_perm h
    · simp only [if_neg hc] at h
      injection h with h
      subst h
      exact List.Perm.refl _

theorem repair_spec (fl : List Char) (val : Char) {i : Nat} {nums : List Nat}
    (hn : nums.Nodup) (hlen : 2 ≤ nums.length) (hi : i < nums.length) :
    ∃ nums1 w, repair fl val i nums = some nums1 ∧ nums1[i]? = some w ∧
      (val ∈ fl → w ≠ 0) ∧
      (i + 1 < nums.length → ∀ k, k < i → nums1[k]? = nums[k]?) := by
  unfold repair
  rw [List.getElem?_eq_getElem hi]
  by_cases hc : val ∈ fl ∧ nums[i] = 0
  · simp only [hc, and_self, if_true]
    by_cases hlast : (i : Int) + 1 > (nums.length : Int) - 1
    · have hj : ((i : Int) + -1).toNat = i - 1 := by omega
      have hnn : ¬ ((i : Int) + -1 < 0) := by omega
      have hjl : i - 1 < nums.length := by omega
      have hs := swapAt_eq_some nums hi hjl
      refine ⟨(nums.set i nums[i - 1]).set (i - 1) nums[i], nums[i - 1], ?_, ?_, ?_, ?_⟩
      · simp only [hlast, if_true, swapAtInt, hnn, if_false, hj]
        exact hs
      · rw [swapAt_getElem? hs i]
        have : i ≠ i - 1 := by omega
        simp [this, List.getElem?_eq_getElem hjl]
      · intro _ hz
        have : nums[i - 1] = nums[i] := by rw [hz, hc.2]
        have := (hn.getElem_inj_iff).mp this
        omega
      · intro h
        omega
    · have hj : ((i : Int) + 1).toNat = i + 1 := by omega
      have hnn : ¬ ((i : Int) + 1 < 0) := by omega
      have hjl : i + 1 < nums.length := by omega
      have hs := swapAt_eq_some nums hi hjl
      refine ⟨(nums.set i nums[i + 1]).set (i + 1) nums[i], nums[i + 1], ?_, ?_, ?_, ?_⟩
      · simp only [hlast, if_false, swapAtInt, hnn, hj]
        exact hs
      · rw [swapAt_getElem? hs i]
        simp [List.getElem?_eq_getElem hjl]
      · intro _ hz
        have : nums[i + 1] = nums[i] := by rw [hz, hc.2]
        have := (hn.getElem_inj_iff).mp this
        omega
      · intro _ k hk
        rw [swapAt_getElem? hs k]
        have h1 : k ≠ i + 1 := by omega
        have h2 : k ≠ i := by omega
        simp [h1, h2]
  · simp only [hc, if_false]
    refine ⟨nums, nums[i], rfl, List.getElem?_eq_getElem hi, ?_, ?_⟩
    · intro hv hz
      exact hc ⟨hv, hz⟩
    · intro _ k _
      rfl

theorem assignLoop_cons_some {fl : List Char} {val : Char} {rest : List Char} {i : Nat}
    {nums : List Nat} {m : Mapping} {out : List Nat × Mapping}
    (h : assignLoop fl (val :: rest) i nums m = some out) :
    ∃ nums1 w, repair fl val i nums = some nums1 ∧ nums1[i]? = some w ∧
      assignLoop fl rest (i + 1) nums1 (mapSet m val w) = some out := by
  unfold assignLoop at h
  split at h
  · exact absurd h (by simp)
  · rename_i nums1 h1
    split at h
    · exact absurd h (by simp)
    · rename_i w h2
      exact ⟨nums1, w, h1, h2, h⟩

theorem assignLoop_nums_perm (fl : List Char) (rest : List Char) (i : Nat)
    (nums : List Nat) (m : Mapping) (out : List Nat × Mapping)
    (h : assignLoop fl rest i nums m = some out) : out.1.Perm nums := by
  induction rest generalizing i nums m with
  | nil =>
    unfold assignLoop at h
    injection h with h
    subst h
    exact List.Perm.refl _
  | cons val rest ih =>
    obtain ⟨nums1, w, h1, _, h3⟩ := assignLoop_cons_some h
    exact (ih _ _ _ h3).trans (repair_perm h1)

theorem assignLoop_frame (fl : List Char) (rest : List Char) (i : Nat)
    (nums : List Nat) (m : Mapping) (out : List Nat × Mapping)
    (h : assignLoop fl rest i nums m = some out) (c : Char) (hc : c ∉ rest) :
    mapGet out.2 c = mapGet m c := by
  induction rest generalizing i nums m with
  | nil =>
    unfold assignLoop at h
    injection h with h
    subst h
    rfl
  | cons val rest ih =>
    obtain ⟨nums1, w, _, _, h3⟩ := assignLoop_cons_some h
    rw [ih _ _ _ h3 (fun hm => hc (List.mem_cons_of_mem _ hm)), mapGet_mapSet]
    have : val ≠ c := fun e => hc (e ▸ List.mem_cons_self _ _)
    simp [this]

theorem assignLoop_keys (fl : List Char) (rest : List Char) (i : Nat)
    (nums : List Nat) (m : Mapping) (out : List Nat × Mapping)
    (h : assignLoop fl rest i nums m = some out) (hr : rest.Nodup)
    (hd : ∀ c ∈ rest, c ∉ mapKeys m) :
    mapKeys out.2 = mapKeys m ++ rest := by
  induction rest generalizing i nums m with
  | nil =>
    unfold assignLoop at h
    injection h with h
    subst h
    simp
  | cons val rest ih =>
    obtain ⟨nums1, w, _, _, h3⟩ := assignLoop_cons_some h
    have hv : val ∉ mapKeys m := hd val (List.mem_cons_self _ _)
    have hk := mapKeys_mapSet_new m val w hv
    rw [List.nodup_cons] at hr
    rw [ih _ _ _ h3 hr.2, hk]
    · simp
    · intro c hc
      rw [hk]
      simp only [List.mem_append, List.mem_singleton, not_or]
      refine ⟨hd c (List.mem_cons_of_mem _ hc), ?_⟩
      intro e
      exact hr.1 (e ▸ hc)

theorem assignLoop_some (fl : List Char) (rest : List Char) (i : Nat)
    (nums : List Nat) (m : Mapping) (hn : nums.Nodup) (hlen : 2 ≤ nums.length)
    (hi : i + rest.length ≤ nums.length) :
    ∃ out, assignLoop fl rest i nums m = some out := by
  induction rest generalizing i nums m with
  | nil => exact ⟨_, rfl⟩
  | cons val rest ih =>
    simp only [List.length_cons] at hi
    obtain ⟨nums1, w, h1, h2, _, _⟩ := repair_spec fl val hn hlen (by omega : i < nums.length)
    have hp := repair_perm h1
    obtain ⟨out, ho⟩ := ih (i + 1) nums1 (mapSet m val w) (hp.nodup_iff.mpr hn)
      (by rw [hp.length_eq]; exact hlen) (by rw [hp.length_eq]; omega)
    refine ⟨out, ?_⟩
    unfold assignLoop
    simp only [h1, h2]
    exact ho

theorem assignLoop_values (fl : List Char) (rest : List Char) (i : Nat)
    (nums : List Nat) (m : Mapping) (out : List Nat × Mapping)
    (h : assignLoop fl rest i nums m = some out) (hn : nums.Nodup)
    (hlen : 2 ≤ nums.length) (hi : i + rest.length ≤ nums.length) (hr : rest.Nodup) :
    ∀ c ∈ rest, mapGet out.2 c ∈ nums ∧ (c ∈ fl → mapGet out.2 c ≠ 0) := by
  induction rest generalizing i nums m with
  | nil => simp
  | cons val rest ih =>
    simp only [List.length_cons] at hi
    obtain ⟨nums1, w, h1, h2, h3⟩ := assignLoop_cons_some h
    obtain ⟨nums1', w', h1', h2', hz, _⟩ :=
      repair_spec fl val hn hlen (by omega : i < nums.length)
    rw [h1] at h1'
    injection h1' with h1'
    subst h1'
    rw [h2] at h2'
    injection h2' with h2'
    subst h2'
    have hp := repair_perm h1
    rw [List.nodup_cons] at hr
    intro c hc
    rcases List.mem_cons.mp hc with hcv | hcr
    · subst hcv
      rw [assignLoop_frame _ _ _ _ _ _ h3 c hr.1, mapGet_mapSet]
      simp only [if_true]
      exact ⟨hp.subset (List.getElem?_mem h2), hz⟩
    · have := ih (i + 1) nums1 (mapSet m val w) h3 (hp.nodup_iff.mpr hn)
        (by rw [hp.length_eq]; exact hlen) (by rw [hp.length_eq]; omega) hr.2 c hcr
      exact ⟨hp.subset this.1, this.2⟩

theorem assignLoop_forward (fl : List Char) (rest : List Char) (i : Nat)
    (nums : List Nat) (m : Mapping) (out : List Nat × Mapping)
    (h : assignLoop fl rest i nums m = some out) (hn : nums.Nodup)
    (hlen : 2 ≤ nums.length) (hi : i + rest.length < nums.length) (hr : rest.Nodup) :
    (∀ k, k < i → out.1[k]? = nums[k]?) ∧
    (∀ k c, rest[k]? = some c → out.1[i + k]? = some (mapGet out.2 c)) := by
  induction rest generalizing i nums m with
  | nil => 
    unfold assignLoop at h
    injection h with h
    subst h
    simp
  | cons val rest ih =>
    simp only [List.length_cons] at hi
    obtain ⟨nums1, w, h1, h2, h3⟩ := assignLoop_cons_some h
    obtain ⟨nums1', w', h1', h2', _, hf⟩ :=
      repair_spec fl val hn hlen (by omega : i < nums.length)
    rw [h1] at h1'
    injection h1' with h1'
    subst h1'
    have hp := repair_perm h1
    rw [List.nodup_cons] at hr
    obtain ⟨ihA, ihB⟩ := ih (i + 1) nums1 (mapSet m val w) h3 (hp.nodup_iff.mpr hn)
        (by rw [hp.length_eq]; exact hlen) (by rw [hp.length_eq]; omega) hr.2
    constructor
    · intro k hk
      rw [ihA k (by omega), hf (by omega) k hk]
    · intro k c hkc
      cases k with
      | zero =>
        simp only [List.getElem?_cons_zero, Option.some.injEq] at hkc
        subst hkc
        rw [assignLoop_frame _ _ _ _ _ _ h3 val hr.1, mapGet_mapSet]
        simp only [if_true, Nat.add_zero]
        rw [ihA i (by omega), h2]
      | succ k =>
        simp only [List.getElem?_cons_succ] at hkc
        have := ihB k c hkc
        rw [← this]
        congr 1
        omega


/-! ## The evaluator on single-digit mappings -/

theorem wrapInt_add_left (a b : Int) : wrapInt (wrapInt a + b) = wrapInt (a + b) := by
  unfold wrapInt
  omega

theorem wrapInt_of_range (a : Int) (h1 : minInt ≤ a) (h2 : a ≤ maxInt) : wrapInt a = a := by
  unfold wrapInt
  unfold minInt at h1
  unfold maxInt at h2
  omega

theorem foldl_wrapInt (xs : List Int) (a : Int) :
    xs.foldl (fun t d => wrapInt (t + d)) (wrapInt a) = wrapInt (a + xs.sum) := by
  induction xs generalizing a with
  | nil => simp
  | cons x xs ih =>
    simp only [List.foldl_cons, List.sum_cons]
    rw [wrapInt_add_left, ih, Int.add_assoc]

theorem guessOf_eq (sum : List Int) : guessOf sum = wrapInt sum.sum := by
  have h0 : (0 : Int) = wrapInt 0 := by decide
  have := foldl_wrapInt sum 0
  unfold guessOf
  rw [h0, this]
  simp

theorem formatInt_digit : ∀ d : Nat, d ≤ 9 → FormatInt d = [Nat.digitChar d] := by
  decide

theorem digitVal_digitChar : ∀ d : Nat, d ≤ 9 → digitVal (Nat.digitChar d) = some d := by
  decide

theorem digitChar_not_sign : ∀ d : Nat, d ≤ 9 →
    ¬ (Nat.digitChar d = '-' ∨ Nat.digitChar d = '+') := by
  decide

theorem digitChar_eq_zero : ∀ d : Nat, d ≤ 9 → (Nat.digitChar d = '0' ↔ d = 0) := by
  decide

theorem numeral_eq (m : Mapping) (w : List Char) (h : ∀ c ∈ w, mapGet m c ≤ 9) :
    numeral m w = (digitsOf m w).map Nat.digitChar := by
  induction w with
  | nil => rfl
  | cons c cs ih =>
    have hc := h c (List.mem_cons_self _ _)
    have := ih (fun x hx => h x (List.mem_cons_of_mem _ hx))
    simp only [numeral, digitsOf, List.map_cons] at this ⊢
    rw [formatInt_digit _ hc, this]
    rfl

theorem parseDigits_digits (ds : List Nat) (h : ∀ d ∈ ds, d ≤ 9) (n : Nat) :
    parseDigits (ds.map Nat.digitChar) n = some (n * 10 ^ ds.length + positional ds) := by
  induction ds generalizing n with
  | nil => simp [parseDigits, positional]
  | cons d ds ih =>
    have hd := h d (List.mem_cons_self _ _)
    simp only [List.map_cons, parseDigits, digitVal_digitChar d hd]
    rw [ih (fun x hx => h x (List.mem_cons_of_mem _ hx))]
    simp only [positional, List.length_cons]
    congr 1
    ring

theorem positional_lt (ds : List Nat) (h : ∀ d ∈ ds, d ≤ 9) :
    positional ds < 10 ^ ds.length := by
  induction ds with
  | nil => simp [positional]
  | cons d ds ih =>
    have hd := h d (List.mem_cons_self _ _)
    have := ih (fun x hx => h x (List.mem_cons_of_mem _ hx))
    simp only [positional, List.length_cons]
    have e : 10 ^ (ds.length + 1) = 10 * 10 ^ ds.length := by ring
    rw [e]
    nlinarith

theorem positional_pos (d : Nat) (ds : List Nat) (h : d ≠ 0) : 0 < positional (d :: ds) := by
  simp only [positional]
  exact Nat.add_pos_left (Nat.mul_pos (Nat.pos_of_ne_zero h)
    (pow_pos (by norm_num : (0 : Nat) < 10) _)) _

theorem atoi_digits (d : Nat) (ds : List Nat) (h : ∀ x ∈ d :: ds, x ≤ 9) :
    Atoi ((d :: ds).map Nat.digitChar) =
      if (positional (d :: ds) : Int) ≤ maxInt then ((positional (d :: ds) : Int), false)
      else (maxInt, true) := by
  have hd := h d (List.mem_cons_self _ _)
  have hp := parseDigits_digits (d :: ds) h 0
  have hs := digitChar_not_sign d hd
  have hm : Nat.digitChar d ≠ '-' := fun e => hs (Or.inl e)
  have hq : Nat.digitChar d ≠ '+' := fun e => hs (Or.inr e)
  simp only [List.map_cons] at hp ⊢
  simp only [Atoi, if_false, hm, hq, decide_False, Bool.false_eq_true, or_self]
  rw [hp]
  simp


theorem buildSum_eq (m : Mapping) (words : List String) (acc : List Int)
    (hdig : ∀ w ∈ words, ∀ c ∈ Split w, mapGet m c ≤ 9)
    (hne : ∀ w ∈ words, Split w ≠ [])
    (hfit : ∀ w ∈ words, included m w = true → (wordValue m w : Int) ≤ maxInt) :
    buildSum m words acc =
      some (acc ++ (words.filter (included m)).map (fun w => (wordValue m w : Int))) := by
  induction words generalizing acc with
  | nil => simp [buildSum]
  | cons word rest ih =>
    have hd := hdig word (List.mem_cons_self _ _)
    have hn := hne word (List.mem_cons_self _ _)
    have hf := hfit word (List.mem_cons_self _ _)
    have ih' := fun acc => ih acc (fun w hw => hdig w (List.mem_cons_of_mem _ hw))
      (fun w hw => hne w (List.mem_cons_of_mem _ hw))
      (fun w hw => hfit w (List.mem_cons_of_mem _ hw))
    have hnum := numeral_eq m (Split word) hd
    unfold buildSum
    cases hsp : Split word with
    | nil => exact absurd hsp hn
    | cons c cs =>
      rw [hsp] at hnum hd
      have hc : mapGet m c ≤ 9 := hd c (List.mem_cons_self _ _)
      have hds : ∀ x ∈ mapGet m c :: digitsOf m cs, x ≤ 9 := by
        intro x hx
        rcases List.mem_cons.mp hx with hx | hx
        · exact hx ▸ hc
        · simp only [digitsOf, List.mem_map] at hx
          obtain ⟨y, hy, rfl⟩ := hx
          exact hd y (List.mem_cons_of_mem _ hy)
      have hnum' : numeral m (c :: cs) =
          Nat.digitChar (mapGet m c) :: (digitsOf m cs).map Nat.digitChar := by
        rw [hnum]
        rfl
      have hval : wordValue m word = positional (mapGet m c :: digitsOf m cs) := by
        simp [wordValue, hsp, digitsOf]
      have hinc : included m word = decide (mapGet m c ≠ 0) := by
        simp [included, hsp, digitsOf]
      rw [hnum']
      simp only
      by_cases hz : mapGet m c = 0
      · have h0 : Nat.digitChar (mapGet m c) = '0' := (digitChar_eq_zero _ hc).mpr hz
        have hi : included m word = false := by simp [hinc, hz]
        simp only [h0, if_true]
        rw [ih' acc, List.filter_cons, hi]
        simp
      · have h0 : ¬ Nat.digitChar (mapGet m c) = '0' := fun e => hz ((digitChar_eq_zero _ hc).mp e)
        have hi : included m word = true := by simp [hinc, hz]
        have hfv := hf hi
        rw [hval] at hfv
        have hat := atoi_digits (mapGet m c) (digitsOf m cs) hds
        simp only [List.map_cons] at hat
        rw [if_pos hfv] at hat
        have hpos := positional_pos (mapGet m c) (digitsOf m cs) hz
        have hne0 : ((positional (mapGet m c :: digitsOf m cs) : Nat) : Int) ≠ 0 := by
          omega
        simp only [h0, if_false, hat, hne0, ne_eq, not_false_eq_true, if_true]
        rw [ih' _, List.filter_cons, hi]
        simp [hval]

theorem evaluate_eq (m : Mapping) (words : List String) (answerChars : List Char)
    (hdig : ∀ w ∈ words, ∀ c ∈ Split w, mapGet m c ≤ 9)
    (hda : ∀ c ∈ answerChars, mapGet m c ≤ 9)
    (hne : ∀ w ∈ words, Split w ≠ [])
    (hna : answerChars ≠ [])
    (hfit : ∀ w ∈ words, included m w = true → (wordValue m w : Int) ≤ maxInt) :
    evaluate m words answerChars =
      some (decide ((positional (digitsOf m answerChars) : Int) ≤ maxInt ∧
        wrapInt (includedSum m words) = positional (digitsOf m answerChars))) := by
  unfold evaluate
  rw [buildSum_eq m words [] hdig hne hfit, numeral_eq m answerChars hda]
  cases hans : digitsOf m answerChars with
  | nil =>
    simp only [digitsOf, List.map_eq_nil_iff] at hans
    exact absurd hans hna
  | cons d ds =>
    have hds : ∀ x ∈ d :: ds, x ≤ 9 := by
      intro x hx
      rw [← hans] at hx
      simp only [digitsOf, List.mem_map] at hx
      obtain ⟨y, hy, rfl⟩ := hx
      exact hda y hy
    rw [atoi_digits d ds hds]
    have hsum : (([] : List Int) ++ (words.filter (included m)).map
        (fun w => (wordValue m w : Int))).sum = ((includedSum m words : Nat) : Int) := by
      simp only [List.nil_append, includedSum]
      induction words.filter (included m) with
      | nil => simp
      | cons w ws ih => simp [ih]
    simp only [guessOf_eq, hsum]
    by_cases hfa : ((positional (d :: ds) : Nat) : Int) ≤ maxInt
    · simp [hfa]
    · simp [hfa]


/-! ## The digit assigner as a whole -/

theorem permLength_ge (n : Nat) : 9 ≤ permLength n ∧ n ≤ permLength n := by
  unfold permLength
  split <;> omega

theorem assigner_spec (fl allChars : List Char) (rnd : Nat → Nat) (nums : List Nat)
    (hnd : allChars.Nodup)
    (hperm : nums.Perm (List.range (permLength allChars.length))) :
    ∃ shuffled mapping, shuffleStrings allChars rnd = some shuffled ∧
      shuffled.Perm allChars ∧ assign fl shuffled nums = some mapping ∧
      mapKeys mapping = shuffled ∧
      (∀ c, mapGet mapping c < permLength allChars.length) ∧
      (∀ c ∈ allChars, c ∈ fl → mapGet mapping c ≠ 0) ∧
      (allChars.length < permLength allChars.length →
        ∀ a ∈ allChars, ∀ b ∈ allChars, mapGet mapping a = mapGet mapping b → a = b) := by
  obtain ⟨shuffled, hsh, hsp⟩ := shuffleStrings_perm allChars rnd
  have hN := permLength_ge allChars.length
  have hlen : nums.length = permLength allChars.length := by
    rw [hperm.length_eq, List.length_range]
  have hnn : nums.Nodup := hperm.nodup_iff.mpr (List.nodup_range _)
  have hsn : shuffled.Nodup := hsp.nodup_iff.mpr hnd
  have hsl : shuffled.length = allChars.length := hsp.length_eq
  obtain ⟨out, hout⟩ := assignLoop_some fl shuffled 0 nums [] hnn (by omega) (by omega)
  have hkeys := assignLoop_keys fl shuffled 0 nums [] out hout hsn (by simp [mapKeys])
  have hvals := assignLoop_values fl shuffled 0 nums [] out hout hnn (by omega) (by omega) hsn
  have hframe := assignLoop_frame fl shuffled 0 nums [] out hout
  refine ⟨shuffled, out.2, hsh, hsp, ?_, ?_, ?_, ?_, ?_⟩
  · unfold assign
    rw [hout]
  · simpa [mapKeys] using hkeys
  · intro c
    by_cases hc : c ∈ shuffled
    · have := (hvals c hc).1
      have := hperm.subset this
      rw [List.mem_range] at this
      exact this
    · rw [hframe c hc]
      simp only [mapGet]
      omega
  · intro c hc hf
    exact (hvals c (hsp.symm.subset hc)).2 hf
  · intro hlt a ha b hb hab
    obtain ⟨_, hfw⟩ := assignLoop_forward fl shuffled 0 nums [] out hout hnn (by omega)
      (by omega) hsn
    have hon : out.1.Nodup :=
      (assignLoop_nums_perm fl shuffled 0 nums [] out hout).nodup_iff.mpr hnn
    obtain ⟨ka, hka⟩ := List.getElem?_of_mem (hsp.symm.subset ha)
    obtain ⟨kb, hkb⟩ := List.getElem?_of_mem (hsp.symm.subset hb)
    have h1 := hfw ka a hka
    have h2 := hfw kb b hkb
    rw [Nat.zero_add] at h1 h2
    rw [hab] at h1
    obtain ⟨ha1, ha2⟩ := List.getElem?_eq_some_iff.mp h1
    obtain ⟨hb1, hb2⟩ := List.getElem?_eq_some_iff.mp h2
    have hk : ka = kb := (hon.getElem_inj_iff).mp (ha2.trans hb2.symm)
    subst hk
    rw [hka] at hkb
    injection hkb

/-! ## The preamble of `try` -/

theorem collectLoop_eq (words : List String) (fl ac : List Char)
    (hne : ∀ w ∈ words, Split w ≠ []) :
    collectLoop words fl ac =
      some (fl ++ words.filterMap (fun w => (Split w).head?),
        ac ++ (words.map Split).flatten) := by
  induction words generalizing fl ac with
  | nil => simp [collectLoop]
  | cons word rest ih =>
    have hn := hne word (List.mem_cons_self _ _)
    unfold collectLoop
    cases hsp : Split word with
    | nil => exact absurd hsp hn
    | cons c cs =>
      simp only
      rw [ih _ _ (fun w hw => hne w (List.mem_cons_of_mem _ hw))]
      simp [hsp]

theorem prepare_eq (words : List String) (answer : String)
    (hne : ∀ w ∈ words, Split w ≠ []) (hna : Split answer ≠ []) :
    prepare words answer =
      some (leadingLetters words answer, uniqueStrings (puzzleLetters words answer)) := by
  unfold prepare
  cases hsp : Split answer with
  | nil => exact absurd hsp hna
  | cons a as =>
    simp only
    rw [collectLoop_eq words [a] [] hne]
    simp [leadingLetters, puzzleLetters, hsp]


/-! ## The digit assigner: claims C2, C3 and C7 -/

/-- C2 (the code departs from the claim): on the 9-letter puzzle
`abcdefgh + i = abcdefgg`, with the letters left in place by the shuffle and the
permutation `[3,4,5,6,7,8,2,1,0]`, the repair of the leading letter `i` at the
last position swaps with the previous index, so `h` and `i` both receive the
digit 1; the mapping has 9 keys, so the size check retains it. -/
theorem assigner_duplicate_digit_retained :
    prepare ["abcdefgh", "i"] "abcdefgg" =
      some (['a', 'a', 'i'], ['a', 'b', 'c', 'd', 'e', 'f', 'g', 'h', 'i']) ∧
    [3, 4, 5, 6, 7, 8, 2, 1, 0].Perm (List.range (permLength 9)) ∧
    shuffleStrings ['a', 'b', 'c', 'd', 'e', 'f', 'g', 'h', 'i'] id =
      some ['a', 'b', 'c', 'd', 'e', 'f', 'g', 'h', 'i'] ∧
    assign ['a', 'a', 'i'] ['a', 'b', 'c', 'd', 'e', 'f', 'g', 'h', 'i']
        [3, 4, 5, 6, 7, 8, 2, 1, 0] =
      some [('a', 3), ('b', 4), ('c', 5), ('d', 6), ('e', 7), ('f', 8), ('g', 2),
        ('h', 1), ('i', 1)] ∧
    mapLen [('a', 3), ('b', 4), ('c', 5), ('d', 6), ('e', 7), ('f', 8), ('g', 2),
        ('h', 1), ('i', 1)] = 9 ∧
    mapGet [('a', 3), ('b', 4), ('c', 5), ('d', 6), ('e', 7), ('f', 8), ('g', 2),
        ('h', 1), ('i', 1)] 'h' =
      mapGet [('a', 3), ('b', 4), ('c', 5), ('d', 6), ('e', 7), ('f', 8), ('g', 2),
        ('h', 1), ('i', 1)] 'i' := by
  decide

/-- C3: for every duplicate-free letter list, every set of leading letters,
every permutation of `0..N-1` (`N = max(9, L)`) and every shuffle, the digit
assignment loop runs to its end and gives every leading letter of the list a
nonzero value. -/
theorem assigner_leading_letters_nonzero (firstLetters allChars : List Char)
    (rnd : Nat → Nat) (nums : List Nat) (hnd : allChars.Nodup)
    (hperm : nums.Perm (List.range (permLength allChars.length))) :
    ∃ shuffled mapping, shuffleStrings allChars rnd = some shuffled ∧
      assign firstLetters shuffled nums = some mapping ∧
      ∀ c ∈ allChars, c ∈ firstLetters → mapGet mapping c ≠ 0 := by
  obtain ⟨shuffled, mapping, h1, _, h3, _, _, h6, _⟩ :=
    assigner_spec firstLetters allChars rnd nums hnd hperm
  exact ⟨shuffled, mapping, h1, h3, h6⟩

/-- Witness for C3: the letters `a, b, c` with leading letter `a` and the
permutation that puts 0 first. -/
theorem assigner_leading_letters_nonzero_witness :
    (['a', 'b', 'c'] : List Char).Nodup ∧
    [0, 1, 2, 3, 4, 5, 6, 7, 8].Perm (List.range (permLength 3)) ∧
    ∃ shuffled mapping, shuffleStrings ['a', 'b', 'c'] id = some shuffled ∧
      assign ['a'] shuffled [0, 1, 2, 3, 4, 5, 6, 7, 8] = some mapping ∧
      ∀ c ∈ ['a', 'b', 'c'], c ∈ ['a'] → mapGet mapping c ≠ 0 :=
  ⟨by decide, by decide,
    assigner_leading_letters_nonzero ['a'] ['a', 'b', 'c'] id [0, 1, 2, 3, 4, 5, 6, 7, 8]
      (by decide) (by decide)⟩

/-- C7: for every puzzle with non-empty words and target and every draw, the
preamble and the digit assignment run without a panic, the letter list is the
duplicate-free list of the puzzle's letters, the mapping's keys are exactly
those letters, its size equals the length of the letter list (the size check
does not reject), and every value is below `N = max(9, L)`. -/
theorem assigner_keys_and_range (words : List String) (answer : String) (d : Draw)
    (hne : ∀ w ∈ words, Split w ≠ []) (hna : Split answer ≠ [])
    (hperm : (d.perm (permLength (uniqueStrings (puzzleLetters words answer)).length)).Perm
      (List.range (permLength (uniqueStrings (puzzleLetters words answer)).length))) :
    ∃ firstLetters allChars shuffled mapping,
      prepare words answer = some (firstLetters, allChars) ∧
      allChars.Nodup ∧ (∀ c, c ∈ allChars ↔ c ∈ puzzleLetters words answer) ∧
      shuffleStrings allChars d.rnd = some shuffled ∧
      assign firstLetters shuffled (d.perm (permLength shuffled.length)) = some mapping ∧
      (mapKeys mapping).Nodup ∧
      (∀ c, c ∈ mapKeys mapping ↔ c ∈ puzzleLetters words answer) ∧
      mapLen mapping = allChars.length ∧
      ∀ c, mapGet mapping c < permLength allChars.length := by
  have hnd := uniqueStrings_nodup (puzzleLetters words answer)
  obtain ⟨shuffled, mapping, h1, h2, h3, h4, h5, _, _⟩ :=
    assigner_spec (leadingLetters words answer) _ d.rnd _ hnd hperm
  refine ⟨_, _, shuffled, mapping, prepare_eq words answer hne hna, hnd,
    mem_uniqueStrings _, h1, ?_, ?_, ?_, ?_, h5⟩
  · rw [h2.length_eq]
    exact h3
  · rw [h4]
    exact h2.nodup_iff.mpr hnd
  · intro c
    rw [h4, h2.mem_iff, mem_uniqueStrings]
  · rw [mapLen_eq_keys, h4, h2.length_eq]

/-- Witness for C7: the puzzle `ab + c = dd` with the identity draw. -/
theorem assigner_keys_and_range_witness :
    (∀ w ∈ ["ab", "c"], Split w ≠ []) ∧ Split "dd" ≠ [] ∧
    ∃ firstLetters allChars shuffled mapping,
      prepare ["ab", "c"] "dd" = some (firstLetters, allChars) ∧
      allChars.Nodup ∧ (∀ c, c ∈ allChars ↔ c ∈ puzzleLetters ["ab", "c"] "dd") ∧
      shuffleStrings allChars id = some shuffled ∧
      assign firstLetters shuffled [0, 1, 2, 3, 4, 5, 6, 7, 8] = some mapping ∧
      (mapKeys mapping).Nodup ∧
      (∀ c, c ∈ mapKeys mapping ↔ c ∈ puzzleLetters ["ab", "c"] "dd") ∧
      mapLen mapping = allChars.length ∧
      ∀ c, mapGet mapping c < permLength allChars.length :=
  ⟨by decide, by decide,
    assigner_keys_and_range ["ab", "c"] "dd" ⟨id, fun _ => [0, 1, 2, 3, 4, 5, 6, 7, 8]⟩
      (by decide) (by decide) (by decide)⟩

/-! ## `medianDuration`: claim C8 -/

/-- C8 (the code departs from the claim): on the two durations 10ms and 20ms
(in nanoseconds) `medianDuration` reads `sorted[2]` of a 2-element slice and
panics. -/
theorem medianDuration_two_elements_panics :
    medianDuration [10000000, 20000000] = none := by
  decide


/-! ## The retry loop -/

theorem retryLoop_cont (seed : Int) (words : List String) (ans fl ac : List Char)
    (draws : List Draw)
    (h : ∀ d ∈ draws, attempt seed words ans fl ac d = Iter.cont) :
    retryLoop seed words ans fl ac draws = Iter.cont := by
  induction draws with
  | nil => rfl
  | cons d ds ih =>
    unfold retryLoop
    rw [h d (List.mem_cons_self _ _)]
    exact ih (fun x hx => h x (List.mem_cons_of_mem _ hx))

theorem retryLoop_ret (seed : Int) (words : List String) (ans fl ac : List Char)
    (draws : List Draw) (r : Result)
    (h : retryLoop seed words ans fl ac draws = Iter.ret r) :
    ∃ d ∈ draws, attempt seed words ans fl ac d = Iter.ret r := by
  induction draws with
  | nil =>
    unfold retryLoop at h
    exact absurd h (by simp)
  | cons d ds ih =>
    unfold retryLoop at h
    cases ha : attempt seed words ans fl ac d with
    | ret r1 =>
      rw [ha] at h
      simp only at h
      exact ⟨d, List.mem_cons_self _ _, ha.trans h⟩
    | cont =>
      rw [ha] at h
      simp only at h
      obtain ⟨x, hx, hxa⟩ := ih h
      exact ⟨x, List.mem_cons_of_mem _ hx, hxa⟩
    | crash =>
      rw [ha] at h
      simp only at h
      exact absurd h (by simp)

theorem attempt_ret {seed : Int} {words : List String} {ans fl ac : List Char} {d : Draw}
    {r : Result} (h : attempt seed words ans fl ac d = Iter.ret r) :
    ∃ shuffled, shuffleStrings ac d.rnd = some shuffled ∧
      assign fl shuffled (d.perm (permLength shuffled.length)) = some r.mapping ∧
      mapLen r.mapping = ac.length ∧
      evaluate r.mapping words ans = some true ∧ r.seed = seed := by
  unfold attempt at h
  cases hs : shuffleStrings ac d.rnd with
  | none =>
    rw [hs] at h
    exact absurd h (by simp)
  | some shuffled =>
    rw [hs] at h
    simp only at h
    cases hm : assign fl shuffled (d.perm (permLength shuffled.length)) with
    | none =>
      rw [hm] at h
      exact absurd h (by simp)
    | some mapping =>
      rw [hm] at h
      simp only at h
      by_cases hl : mapLen mapping ≠ ac.length
      · rw [if_pos hl] at h
        exact absurd h (by simp)
      · rw [if_neg hl] at h
        cases he : evaluate mapping words ans with
        | none =>
          rw [he] at h
          exact absurd h (by simp)
        | some b =>
          rw [he] at h
          cases b with
          | false => exact absurd h (by simp)
          | true =>
            simp only [Iter.ret.injEq] at h
            subst h
            exact ⟨shuffled, rfl, hm, not_not.mp hl, he, rfl⟩

/-! ## The search worker: claim C4 -/

/-- C4: whenever the search worker returns a Result, the evaluator run on that
Result's mapping and the same puzzle reports satisfied: the loop "Build the
sum" yields a slice `sum`, the target's numeral parses without error, and the
64-bit total of `sum` equals the parsed target. -/
theorem try_result_satisfies_evaluator (now i : Int) (words : List String)
    (answer : String) (draws : List Draw) (r : Result)
    (h : try_ now i words answer draws = Iter.ret r) :
    evaluate r.mapping words (Split answer) = some true ∧
    ∃ sum, buildSum r.mapping words [] = some sum ∧
      Atoi (numeral r.mapping (Split answer)) = (guessOf sum, false) := by
  unfold try_ at h
  cases hp : prepare words answer with
  | none =>
    rw [hp] at h
    exact absurd h (by simp)
  | some p =>
    obtain ⟨fl, ac⟩ := p
    rw [hp] at h
    simp only at h
    obtain ⟨d, _, hd⟩ := retryLoop_ret _ _ _ _ _ _ _ h
    obtain ⟨_, _, _, _, he, _⟩ := attempt_ret hd
    refine ⟨he, ?_⟩
    unfold evaluate at he
    cases hb : buildSum r.mapping words [] with
    | none =>
      rw [hb] at he
      exact absurd he (by simp)
    | some sum =>
      rw [hb] at he
      refine ⟨sum, rfl, ?_⟩
      cases ha : Atoi (numeral r.mapping (Split answer)) with
      | mk v e =>
        rw [ha] at he
        simp only at he
        cases e with
        | true => simp at he
        | false =>
          simp only [Bool.false_eq_true, if_false, Option.some.injEq, decide_eq_true_eq] at he
          rw [he]

/-- Witness for C4: the puzzle `a + b = c` with a draw that maps a, b, c to
1, 2, 3. -/
theorem try_result_satisfies_evaluator_witness :
    try_ 1 1 ["a", "b"] "c" [⟨id, fun _ => [1, 2, 3, 0, 4, 5, 6, 7, 8]⟩] =
      Iter.ret ⟨[('a', 1), ('b', 2), ('c', 3)], 1⟩ ∧
    (evaluate [('a', 1), ('b', 2), ('c', 3)] ["a", "b"] (Split "c") = some true ∧
    ∃ sum, buildSum [('a', 1), ('b', 2), ('c', 3)] ["a", "b"] [] = some sum ∧
      Atoi (numeral [('a', 1), ('b', 2), ('c', 3)] (Split "c")) = (guessOf sum, false)) :=
  ⟨by decide,
    try_result_satisfies_evaluator 1 1 ["a", "b"] "c"
      [⟨id, fun _ => [1, 2, 3, 0, 4, 5, 6, 7, 8]⟩] ⟨[('a', 1), ('b', 2), ('c', 3)], 1⟩
      (by decide)⟩


theorem attempt_eq (seed : Int) (words : List String) (ans fl ac : List Char) (d : Draw)
    (hnd : ac.Nodup)
    (hperm : (d.perm (permLength ac.length)).Perm (List.range (permLength ac.length))) :
    ∃ mapping, (∀ c, mapGet mapping c < permLength ac.length) ∧
      (∀ c ∈ ac, c ∈ fl → mapGet mapping c ≠ 0) ∧
      (ac.length < permLength ac.length →
        ∀ a ∈ ac, ∀ b ∈ ac, mapGet mapping a = mapGet mapping b → a = b) ∧
      attempt seed words ans fl ac d =
        (match evaluate mapping words ans with
          | none => Iter.crash
          | some true => Iter.ret ⟨mapping, seed⟩
          | some false => Iter.cont) := by
  obtain ⟨shuffled, mapping, h1, h2, h3, h4, h5, h6, h7⟩ :=
    assigner_spec fl ac d.rnd _ hnd hperm
  refine ⟨mapping, h5, h6, h7, ?_⟩
  have hl : mapLen mapping = ac.length := by
    rw [mapLen_eq_keys, h4, h2.length_eq]
  unfold attempt
  rw [h1]
  simp only
  rw [h2.length_eq, h3]
  simp only [hl, ne_eq, not_true_eq_false, if_false]

/-! ## Termination on satisfiable puzzles: claim C6 -/

/-- C6 (the code departs from the claim): `send + more = money` has the valid
solution 9567 + 1085 = 10652, but it has 8 letters, so `rand.Perm(9)` only
draws the values 0..8 and the search worker rejects every draw: over any
supply of draws the retry loop is still running (`Iter.cont`), it never returns
and never panics. -/
theorem send_more_money_never_returns (now i : Int) (draws : List Draw)
    (hdraws : ∀ d ∈ draws, (d.perm 9).Perm (List.range 9)) :
    try_ now i ["send", "more"] "money" draws = Iter.cont := by
  have hp : prepare ["send", "more"] "money" =
      some (['m', 's', 'm'], ['s', 'e', 'n', 'd', 'm', 'o', 'r', 'y']) := by decide
  unfold try_
  rw [hp]
  simp only
  apply retryLoop_cont
  intro d hd
  obtain ⟨mapping, hrange, hlead, _, hatt⟩ :=
    attempt_eq (wrapInt (now * i)) ["send", "more"] (Split "money") ['m', 's', 'm']
      ['s', 'e', 'n', 'd', 'm', 'o', 'r', 'y'] d (by decide) (hdraws d hd)
  rw [hatt]
  have hN : permLength (['s', 'e', 'n', 'd', 'm', 'o', 'r', 'y'] : List Char).length = 9 := by
    decide
  rw [hN] at hrange
  have h9 : ∀ c, mapGet mapping c ≤ 9 := fun c => by
    have := hrange c
    omega
  have hs : mapGet mapping 's' ≠ 0 := hlead 's' (by decide) (by decide)
  have hm : mapGet mapping 'm' ≠ 0 := hlead 'm' (by decide) (by decide)
  have hS := hrange 's'
  have hE := hrange 'e'
  have hNn := hrange 'n'
  have hD := hrange 'd'
  have hM := hrange 'm'
  have hO := hrange 'o'
  have hR := hrange 'r'
  have hY := hrange 'y'
  have hinc1 : included mapping "send" = true := by
    simp [included, digitsOf, Split, hs]
  have hinc2 : included mapping "more" = true := by
    simp [included, digitsOf, Split, hm]
  have hv1 : wordValue mapping "send" = mapGet mapping 's' * 1000 + mapGet mapping 'e' * 100
      + mapGet mapping 'n' * 10 + mapGet mapping 'd' := by
    simp [wordValue, digitsOf, Split, positional]
    ring
  have hv2 : wordValue mapping "more" = mapGet mapping 'm' * 1000 + mapGet mapping 'o' * 100
      + mapGet mapping 'r' * 10 + mapGet mapping 'e' := by
    simp [wordValue, digitsOf, Split, positional]
    ring
  have hv3 : positional (digitsOf mapping (Split "money")) = mapGet mapping 'm' * 10000
      + mapGet mapping 'o' * 1000 + mapGet mapping 'n' * 100 + mapGet mapping 'e' * 10
      + mapGet mapping 'y' := by
    simp [digitsOf, Split, positional]
    ring
  have hsum : includedSum mapping ["send", "more"] =
      wordValue mapping "send" + wordValue mapping "more" := by
    simp [includedSum, List.filter, hinc1, hinc2]
  have hev := evaluate_eq mapping ["send", "more"] (Split "money")
    (fun _ _ c _ => h9 c) (fun c _ => h9 c) (by decide) (by decide)
    (by
      intro w hw _
      simp only [List.mem_cons, List.mem_singleton, List.not_mem_nil, or_false] at hw
      unfold maxInt
      rcases hw with rfl | rfl
      · rw [hv1]
        omega
      · rw [hv2]
        omega)
  rw [hev, hsum, hv1, hv2, hv3]
  have hfalse : ¬ (((mapGet mapping 'm' * 10000 + mapGet mapping 'o' * 1000
      + mapGet mapping 'n' * 100 + mapGet mapping 'e' * 10 + mapGet mapping 'y' : Nat) : Int)
        ≤ maxInt ∧
      wrapInt ((mapGet mapping 's' * 1000 + mapGet mapping 'e' * 100
        + mapGet mapping 'n' * 10 + mapGet mapping 'd' + (mapGet mapping 'm' * 1000
        + mapGet mapping 'o' * 100 + mapGet mapping 'r' * 10 + mapGet mapping 'e') : Nat) : Int)
      = ((mapGet mapping 'm' * 10000 + mapGet mapping 'o' * 1000
        + mapGet mapping 'n' * 100 + mapGet mapping 'e' * 10 + mapGet mapping 'y' : Nat) : Int)) := by
    unfold wrapInt maxInt
    omega
  simp only [hfalse, decide_False]

/-- Witness for C6's theorem: one draw whose permutation of 0..8 is valid. -/
theorem send_more_money_never_returns_witness :
    (∀ d ∈ [(⟨id, fun _ => [8, 5, 6, 7, 1, 0, 3, 2, 4]⟩ : Draw)],
      (d.perm 9).Perm (List.range 9)) ∧
    try_ 1 1 ["send", "more"] "money" [⟨id, fun _ => [8, 5, 6, 7, 1, 0, 3, 2, 4]⟩] =
      Iter.cont :=
  ⟨by simp only [List.mem_singleton, forall_eq]; decide,
    send_more_money_never_returns 1 1 [⟨id, fun _ => [8, 5, 6, 7, 1, 0, 3, 2, 4]⟩]
      (by simp only [List.mem_singleton, forall_eq]; decide)⟩


/-! ## Results of the search worker: claim C1 -/

theorem filter_included_of_leading (m : Mapping) (words : List String)
    (h : ∀ w ∈ words, ∀ c ∈ (Split w).head?, mapGet m c ≠ 0) :
    words.filter (included m) = words := by
  rw [List.filter_eq_self]
  intro w hw
  have := h w hw
  unfold included digitsOf
  cases hsp : Split w with
  | nil => simp
  | cons c cs =>
    rw [hsp] at this
    have hc := this c (by simp)
    simp [hc]

theorem wordValue_lt (m : Mapping) (w : String) (h : ∀ c, mapGet m c ≤ 9) :
    wordValue m w < 10 ^ (Split w).length := by
  have := positional_lt (digitsOf m (Split w)) (by
    intro d hd
    simp only [digitsOf, List.mem_map] at hd
    obtain ⟨c, _, rfl⟩ := hd
    exact h c)
  simpa [wordValue, digitsOf] using this

theorem sum_wordValue_le (m : Mapping) (words : List String) (h : ∀ c, mapGet m c ≤ 9) :
    (words.map (wordValue m)).sum ≤ (words.map (fun w => 10 ^ (Split w).length)).sum := by
  induction words with
  | nil => simp
  | cons w ws ih =>
    have := wordValue_lt m w h
    simp only [List.map_cons, List.sum_cons]
    omega

theorem mem_le_sum (xs : List Nat) (x : Nat) (h : x ∈ xs) : x ≤ xs.sum := by
  induction xs with
  | nil => exact absurd h (List.not_mem_nil _)
  | cons y ys ih =>
    simp only [List.sum_cons]
    rcases List.mem_cons.mp h with h | h
    · omega
    · have := ih h
      omega

theorem mem_puzzleLetters_of_head (words : List String) (answer : String) (w : String)
    (hw : w ∈ answer :: words) (c : Char) (hc : c ∈ (Split w).head?) :
    c ∈ puzzleLetters words answer ∧ c ∈ leadingLetters words answer := by
  have hcw : c ∈ Split w := List.mem_of_mem_head? hc
  constructor
  · unfold puzzleLetters
    rw [List.mem_append]
    rcases List.mem_cons.mp hw with h | h
    · right
      exact h ▸ hcw
    · left
      rw [List.mem_flatten]
      exact ⟨Split w, List.mem_map_of_mem _ h, hcw⟩
  · unfold leadingLetters
    rw [List.mem_filterMap]
    exact ⟨w, hw, hc⟩

/-- C1, counterexample: the 11-letter puzzle `a+b+c+d+e+f+g+h+i = jk` widens the
digit range to 0..10; with the letters left in place and the permutation
`[1,2,3,4,6,7,8,9,10,5,0]` the search worker returns a Result that maps `i` to
10, which is not a decimal digit, so the Result is not a valid alphametic
solution. -/
theorem try_returns_invalid_solution :
    [1, 2, 3, 4, 6, 7, 8, 9, 10, 5, 0].Perm (List.range (permLength 11)) ∧
    ∃ r, try_ 1 1 ["a", "b", "c", "d", "e", "f", "g", "h", "i"] "jk"
        [⟨id, fun _ => [1, 2, 3, 4, 6, 7, 8, 9, 10, 5, 0]⟩] = Iter.ret r ∧
      mapGet r.mapping 'i' = 10 ∧
      ¬ ValidSolution ["a", "b", "c", "d", "e", "f", "g", "h", "i"] "jk" r.mapping := by
  refine ⟨by decide, ⟨[('a', 1), ('b', 2), ('c', 3), ('d', 4), ('e', 6), ('f', 7), ('g', 8),
    ('h', 9), ('i', 10), ('j', 5), ('k', 0)], 1⟩, by decide, by decide, ?_⟩
  intro hv
  exact absurd (hv.2.1 'i' (by decide)) (by decide)

/-- C1, amended: for a puzzle with non-empty words and target, at most 10
distinct letters and addends short enough that the sum of `10^length` over
them stays below `2^63`, every Result the search worker returns maps each
letter to a decimal digit, maps no leading letter to zero, and makes the
base-10 values of all the addends add up to the value of the target; when the
puzzle has at most 8 distinct letters, distinct letters get distinct digits. -/
theorem try_result_valid (now i : Int) (words : List String) (answer : String)
    (draws : List Draw) (r : Result)
    (hne : ∀ w ∈ words, Split w ≠ []) (hna : Split answer ≠ [])
    (hL : (uniqueStrings (puzzleLetters words answer)).length ≤ 10)
    (hfit : (words.map (fun w => 10 ^ (Split w).length)).sum < 2 ^ 63)
    (hdraws : ∀ d ∈ draws,
      (d.perm (permLength (uniqueStrings (puzzleLetters words answer)).length)).Perm
        (List.range (permLength (uniqueStrings (puzzleLetters words answer)).length)))
    (hret : try_ now i words answer draws = Iter.ret r) :
    ((uniqueStrings (puzzleLetters words answer)).length ≤ 8 →
      DistinctDigits words answer r.mapping) ∧
    DecimalDigits words answer r.mapping ∧ NoLeadingZero words answer r.mapping ∧
    SumMatches words answer r.mapping := by
  unfold try_ at hret
  rw [prepare_eq words answer hne hna] at hret
  simp only at hret
  obtain ⟨d, hd, hatt⟩ := retryLoop_ret _ _ _ _ _ _ _ hret
  obtain ⟨mapping, hrange, hlead, hinj, heq⟩ :=
    attempt_eq (wrapInt (now * i)) words (Split answer) (leadingLetters words answer)
      (uniqueStrings (puzzleLetters words answer)) d
      (uniqueStrings_nodup _) (hdraws d hd)
  rw [heq] at hatt
  have hev : evaluate mapping words (Split answer) = some true ∧ r.mapping = mapping := by
    cases he : evaluate mapping words (Split answer) with
    | none =>
      rw [he] at hatt
      exact absurd hatt (by simp)
    | some b =>
      rw [he] at hatt
      cases b with
      | false => exact absurd hatt (by simp)
      | true =>
        simp only [Iter.ret.injEq] at hatt
        rw [← hatt]
        exact ⟨rfl, rfl⟩
  obtain ⟨hev, hrm⟩ := hev
  rw [hrm]
  have hN : permLength (uniqueStrings (puzzleLetters words answer)).length ≤ 10 := by
    unfold permLength
    split <;> omega
  have h9 : ∀ c, mapGet mapping c ≤ 9 := fun c => by
    have := hrange c
    omega
  have hnl : NoLeadingZero words answer mapping := by
    intro w hw c hc
    obtain ⟨h1, h2⟩ := mem_puzzleLetters_of_head words answer w hw c hc
    exact hlead c ((mem_uniqueStrings _ c).mpr h1) h2
  have hfilter := filter_included_of_leading mapping words
    (fun w hw => hnl w (List.mem_cons_of_mem _ hw))
  have hsle := sum_wordValue_le mapping words h9
  have hevq := evaluate_eq mapping words (Split answer) (fun _ _ c _ => h9 c)
    (fun c _ => h9 c) hne hna (by
      intro w hw _
      have h1 := mem_le_sum _ _ (List.mem_map_of_mem (wordValue mapping) hw)
      unfold maxInt
      omega)
  rw [hevq] at hev
  simp only [Option.some.injEq, decide_eq_true_eq] at hev
  have hsum : includedSum mapping words = (words.map (wordValue mapping)).sum := by
    unfold includedSum
    rw [hfilter]
  refine ⟨?_, fun a _ => h9 a, hnl, ?_⟩
  · intro h8 a ha b hb hab hval
    have hlt : (uniqueStrings (puzzleLetters words answer)).length <
        permLength (uniqueStrings (puzzleLetters words answer)).length := by
      have := (permLength_ge (uniqueStrings (puzzleLetters words answer)).length).1
      omega
    exact hab (hinj hlt a ((mem_uniqueStrings _ a).mpr ha) b ((mem_uniqueStrings _ b).mpr hb) hval)
  · unfold SumMatches wordValue
    have h2 := hev.2
    rw [hsum, wrapInt_of_range _ (by unfold minInt; omega) (by unfold maxInt; omega)] at h2
    exact_mod_cast h2

/-- Witness for C1: the puzzle `a + b = c` and a draw that maps a, b, c to
1, 2, 3. -/
theorem try_result_valid_witness :
    try_ 1 1 ["a", "b"] "c" [⟨id, fun _ => [1, 2, 3, 0, 4, 5, 6, 7, 8]⟩] =
      Iter.ret ⟨[('a', 1), ('b', 2), ('c', 3)], 1⟩ ∧
    (((uniqueStrings (puzzleLetters ["a", "b"] "c")).length ≤ 8 →
      DistinctDigits ["a", "b"] "c" [('a', 1), ('b', 2), ('c', 3)]) ∧
    DecimalDigits ["a", "b"] "c" [('a', 1), ('b', 2), ('c', 3)] ∧
    NoLeadingZero ["a", "b"] "c" [('a', 1), ('b', 2), ('c', 3)] ∧
    SumMatches ["a", "b"] "c" [('a', 1), ('b', 2), ('c', 3)]) :=
  ⟨by decide,
    try_result_valid 1 1 ["a", "b"] "c" [⟨id, fun _ => [1, 2, 3, 0, 4, 5, 6, 7, 8]⟩]
      ⟨[('a', 1), ('b', 2), ('c', 3)], 1⟩ (by decide) (by decide) (by decide) (by decide)
      (by simp only [List.mem_singleton, forall_eq]; decide) (by decide)⟩


/-! ## The evaluator: claim C5 -/

theorem mapGet_le_of_values (m : Mapping) (h : ∀ p ∈ m, p.2 ≤ 9) (c : Char) :
    mapGet m c ≤ 9 := by
  rcases mapGet_mem_or_zero m c with hm | ⟨_, hz⟩
  · exact h _ hm
  · omega

/-- C5, counterexample: with the letters `a..j` mapped to the digits 0..9, four
copies of the addend `egbbgigabiechdihjae` (the numeral 4611686018427387904,
which is `2^62` and fits the machine integer) and the target `a` (value 0), the
64-bit total wraps to 0, so the evaluator reports satisfied although the sum of
the included addends is `2^64`, not 0. -/
theorem evaluate_satisfied_by_wrapped_sum :
    (∀ p ∈ [('a', 0), ('b', 1), ('c', 2), ('d', 3), ('e', 4), ('f', 5), ('g', 6), ('h', 7),
      ('i', 8), ('j', 9)], p.2 ≤ 9) ∧
    (∀ w ∈ ["egbbgigabiechdihjae", "egbbgigabiechdihjae", "egbbgigabiechdihjae",
        "egbbgigabiechdihjae"],
      Split w ≠ [] ∧
      (wordValue [('a', 0), ('b', 1), ('c', 2), ('d', 3), ('e', 4), ('f', 5), ('g', 6),
        ('h', 7), ('i', 8), ('j', 9)] w : Int) ≤ maxInt) ∧
    evaluate [('a', 0), ('b', 1), ('c', 2), ('d', 3), ('e', 4), ('f', 5), ('g', 6), ('h', 7),
        ('i', 8), ('j', 9)]
      ["egbbgigabiechdihjae", "egbbgigabiechdihjae", "egbbgigabiechdihjae",
        "egbbgigabiechdihjae"] (Split "a") = some true ∧
    includedSum [('a', 0), ('b', 1), ('c', 2), ('d', 3), ('e', 4), ('f', 5), ('g', 6),
        ('h', 7), ('i', 8), ('j', 9)]
      ["egbbgigabiechdihjae", "egbbgigabiechdihjae", "egbbgigabiechdihjae",
        "egbbgigabiechdihjae"] = 2 ^ 64 ∧
    wordValue [('a', 0), ('b', 1), ('c', 2), ('d', 3), ('e', 4), ('f', 5), ('g', 6), ('h', 7),
        ('i', 8), ('j', 9)] "a" = 0 := by
  set_option maxRecDepth 20000 in decide

/-- C5, amended: for every mapping whose values are decimal digits and every
puzzle with non-empty words and target in which no numeral overflows the
machine integer and the sum of the included addends does not overflow it
either, the evaluator runs without a panic and reports satisfied exactly when
`S = T`: `T` the positional value of the target, `S` the sum of the positional
values of the addends whose first mapped digit is not 0. -/
theorem evaluate_iff_included_sum (m : Mapping) (words : List String) (answer : String)
    (hdig : ∀ p ∈ m, p.2 ≤ 9)
    (hne : ∀ w ∈ words, Split w ≠ []) (hna : Split answer ≠ [])
    (hfitw : ∀ w ∈ words, (wordValue m w : Int) ≤ maxInt)
    (hfita : (wordValue m answer : Int) ≤ maxInt)
    (hsum : (includedSum m words : Int) ≤ maxInt) :
    evaluate m words (Split answer) =
      some (decide (includedSum m words = wordValue m answer)) := by
  have h9 := mapGet_le_of_values m hdig
  rw [evaluate_eq m words (Split answer) (fun _ _ c _ => h9 c) (fun c _ => h9 c) hne hna
    (fun w hw _ => hfitw w hw)]
  have hw : wrapInt (includedSum m words : Int) = (includedSum m words : Int) :=
    wrapInt_of_range _ (by unfold minInt; omega) hsum
  have hT : ((positional (digitsOf m (Split answer)) : Nat) : Int) ≤ maxInt := hfita
  rw [hw, Option.some.injEq, decide_eq_decide]
  unfold wordValue
  constructor
  · intro h
    exact_mod_cast h.2
  · intro h
    exact ⟨hT, by exact_mod_cast h⟩

/-- Witness for C5: `send + more = money` under its solution
9567 + 1085 = 10652. -/
theorem evaluate_iff_included_sum_witness :
    evaluate [('s', 9), ('e', 5), ('n', 6), ('d', 7), ('m', 1), ('o', 0), ('r', 8), ('y', 2)]
      ["send", "more"] (Split "money") =
    some (decide (includedSum
      [('s', 9), ('e', 5), ('n', 6), ('d', 7), ('m', 1), ('o', 0), ('r', 8), ('y', 2)]
      ["send", "more"] =
      wordValue [('s', 9), ('e', 5), ('n', 6), ('d', 7), ('m', 1), ('o', 0), ('r', 8), ('y', 2)]
        "money")) :=
  evaluate_iff_included_sum
    [('s', 9), ('e', 5), ('n', 6), ('d', 7), ('m', 1), ('o', 0), ('r', 8), ('y', 2)]
    ["send", "more"] "money" (by decide) (by decide) (by decide) (by decide) (by decide)
    (by decide)


/-! ## Statistics: insertion sort, and claim C10 -/

theorem insertLess_perm {α : Type} (less : α → α → Bool) (x : α) (l : List α) :
    (insertLess less x l).Perm (x :: l) := by
  induction l with
  | nil => exact List.Perm.refl _
  | cons y ys ih =>
    unfold insertLess
    by_cases h : less y x = true
    · rw [if_pos h]
      exact (List.Perm.cons y ih).trans (List.Perm.swap x y ys)
    · rw [if_neg h]

theorem insertionSort_perm {α : Type} (less : α → α → Bool) (l : List α) :
    (insertionSort less l).Perm l := by
  induction l with
  | nil => exact List.Perm.refl _
  | cons x xs ih =>
    unfold insertionSort
    exact (insertLess_perm less x _).trans (List.Perm.cons x ih)

theorem insertionSort_first {α : Type} (less : α → α → Bool)
    (hasym : ∀ a b, less a b = true → less b a = false)
    (htrans : ∀ a b c, less b a = false → less c b = false → less c a = false)
    (xs : List α) (hne : xs ≠ []) :
    ∃ h, (insertionSort less xs)[0]? = some h ∧ h ∈ xs ∧ ∀ x ∈ xs, less x h = false := by
  have hirr : ∀ a, less a a = false := by
    intro a
    cases h : less a a with
    | false => rfl
    | true => exact (hasym a a h).symm.trans h ▸ rfl
  induction xs with
  | nil => exact absurd rfl hne
  | cons x rest ih =>
    have hp := insertionSort_perm less rest
    unfold insertionSort
    cases hs : insertionSort less rest with
    | nil =>
      rw [hs] at hp
      have hr : rest = [] := List.Perm.eq_nil hp.symm
      subst hr
      refine ⟨x, rfl, List.mem_cons_self _ _, ?_⟩
      intro z hz
      rw [List.mem_singleton] at hz
      rw [hz]
      exact hirr x
    | cons y ys =>
      have hrne : rest ≠ [] := by
        intro e
        rw [e] at hs
        simp [insertionSort] at hs
      obtain ⟨h, h1, h2, h3⟩ := ih hrne
      rw [hs] at h1
      simp only [List.getElem?_cons_zero, Option.some.injEq] at h1
      subst h1
      unfold insertLess
      by_cases hl : less y x = true
      · rw [if_pos hl]
        refine ⟨y, List.getElem?_cons_zero, List.mem_cons_of_mem _ h2, ?_⟩
        intro z hz
        rcases List.mem_cons.mp hz with hz | hz
        · rw [hz]
          exact hasym y x hl
        · exact h3 z hz
      · rw [if_neg hl]
        have hl' : less y x = false := by simpa using hl
        refine ⟨x, List.getElem?_cons_zero, List.mem_cons_self _ _, ?_⟩
        intro z hz
        rcases List.mem_cons.mp hz with hz | hz
        · rw [hz]
          exact hirr x
        · exact htrans x y z hl' (h3 z hz)

theorem abs_sub_tdiv_mul_lt (a b : Int) (hb : 0 < b) : |a - a.tdiv b * b| < b := by
  have hdef : ∀ c : Int, c - c.tdiv b * b = c.tmod b := by
    intro c
    rw [Int.tmod_def, Int.mul_comm]
  rw [abs_lt]
  rcases le_or_lt 0 a with ha | ha
  · rw [hdef]
    have h1 := Int.tmod_nonneg b ha
    have h2 := Int.tmod_lt_of_pos a hb
    constructor <;> omega
  · have h0 := hdef (-a)
    rw [Int.neg_tdiv] at h0
    have h1 := Int.tmod_nonneg b (by omega : 0 ≤ -a)
    have h2 := Int.tmod_lt_of_pos (-a) hb
    have e : a - a.tdiv b * b = -((-a).tmod b) := by
      rw [← h0]
      ring
    rw [e]
    constructor <;> omega

/-- C10: for a non-empty slice of durations whose sum fits `int64`,
`totalDuration` is the arithmetic sum of the elements and `meanDuration`
returns that sum divided by the element count with truncating division, so
`|total - mean * count| < count`. -/
theorem total_and_mean (durations : List Int) (hne : durations ≠ [])
    (hlo : minInt ≤ durations.sum) (hhi : durations.sum ≤ maxInt) :
    totalDuration durations = durations.sum ∧
    ∃ mean, meanDuration durations = some mean ∧
      mean = Int.tdiv (totalDuration durations) (durations.length : Int) ∧
      |totalDuration durations - mean * (durations.length : Int)| < (durations.length : Int) := by
  have htot : totalDuration durations = durations.sum := by
    unfold totalDuration
    have h0 : (0 : Int) = wrapInt 0 := by decide
    rw [h0, foldl_wrapInt, Int.zero_add]
    exact wrapInt_of_range _ hlo hhi
  have hlen : 0 < durations.length := List.length_pos.mpr hne
  have hlen' : durations.length ≠ 0 := by omega
  refine ⟨htot, Int.tdiv (totalDuration durations) (durations.length : Int), ?_, rfl, ?_⟩
  · unfold meanDuration
    simp only [hlen', if_false]
    rfl
  · exact abs_sub_tdiv_mul_lt _ _ (by exact_mod_cast hlen)

/-- Witness for C10: the durations 7, -2 and 3. -/
theorem total_and_mean_witness :
    totalDuration [7, -2, 3] = ([7, -2, 3] : List Int).sum ∧
    ∃ mean, meanDuration [7, -2, 3] = some mean ∧
      mean = Int.tdiv (totalDuration [7, -2, 3]) (([7, -2, 3] : List Int).length : Int) ∧
      |totalDuration [7, -2, 3] - mean * (([7, -2, 3] : List Int).length : Int)| <
        (([7, -2, 3] : List Int).length : Int) :=
  total_and_mean [7, -2, 3] (by decide) (by decide) (by decide)


/-! ## The default puzzle: claim C14 -/

/-- C14, counterexample: the letter list the search worker computes for the
puzzle configured in `main` has more than 9 elements. -/
theorem main_puzzle_letters_exceed_nine :
    ∃ firstLetters allChars, prepare mainWords mainAnswer = some (firstLetters, allChars) ∧
      ¬ allChars.length ≤ 9 := by
  exact ⟨['c', 'a', 'l', 'n', 'm'], ['a', 'l', 's', 'n', 'o', 'm', 'r', 'e', 'c', 'h'],
    by decide, by decide⟩

/-- C14, amended: the puzzle configured in `main` has exactly 10 distinct
letters, `a l s n o m r e c h`, so the digit range widens to `N = 10`. -/
theorem main_puzzle_ten_letters :
    prepare mainWords mainAnswer =
      some (['c', 'a', 'l', 'n', 'm'], ['a', 'l', 's', 'n', 'o', 'm', 'r', 'e', 'c', 'h']) ∧
    (['a', 'l', 's', 'n', 'o', 'm', 'r', 'e', 'c', 'h'] : List Char).length = 10 ∧
    permLength (['a', 'l', 's', 'n', 'o', 'm', 'r', 'e', 'c', 'h'] : List Char).length = 10 := by
  decide

/-! ## `medianDuration`: claims C11 and C15 -/

theorem insertLess_pairwise {α : Type} (less : α → α → Bool)
    (hasym : ∀ a b, less a b = true → less b a = false)
    (htrans : ∀ a b c, less b a = false → less c b = false → less c a = false)
    (x : α) (l : List α) (h : l.Pairwise (fun a b => less b a = false)) :
    (insertLess less x l).Pairwise (fun a b => less b a = false) := by
  induction l with
  | nil => simp [insertLess]
  | cons y ys ih =>
    rw [List.pairwise_cons] at h
    unfold insertLess
    by_cases hl : less y x = true
    · rw [if_pos hl, List.pairwise_cons]
      refine ⟨?_, ih h.2⟩
      intro z hz
      rcases List.mem_cons.mp ((insertLess_perm less x ys).subset hz) with hz | hz
      · rw [hz]
        exact hasym y x hl
      · exact h.1 z hz
    · rw [if_neg hl]
      have hl' : less y x = false := by simpa using hl
      rw [List.pairwise_cons]
      refine ⟨?_, List.pairwise_cons.mpr h⟩
      intro z hz
      rcases List.mem_cons.mp hz with hz | hz
      · rw [hz]
        exact hl'
      · exact htrans x y z hl' (h.1 z hz)

theorem insertionSort_pairwise {α : Type} (less : α → α → Bool)
    (hasym : ∀ a b, less a b = true → less b a = false)
    (htrans : ∀ a b c, less b a = false → less c b = false → less c a = false)
    (l : List α) : (insertionSort less l).Pairwise (fun a b => less b a = false) := by
  induction l with
  | nil => simp [insertionSort]
  | cons x xs ih =>
    unfold insertionSort
    exact insertLess_pairwise less hasym htrans x _ ih

theorem sortDurations_asc (durations : List Int) :
    (sortDurations durations true).Pairwise (fun a b => a ≤ b) ∧
    (sortDurations durations true).Perm durations := by
  refine ⟨?_, insertionSort_perm _ _⟩
  have := insertionSort_pairwise
    (fun a b : Int => if true then decide (a < b) else decide (a > b))
    (by intro a b; simp; omega) (by intro a b c; simp; omega) durations
  refine List.Pairwise.imp ?_ this
  intro a b hab
  simpa using hab

theorem pairwise_le_getElem (s : List Int) (h : s.Pairwise (fun a b => a ≤ b))
    (i j : Nat) (hi : i < s.length) (hj : j < s.length) (hij : i ≤ j) : s[i] ≤ s[j] := by
  rcases Nat.lt_or_eq_of_le hij with hlt | heq
  · exact List.pairwise_iff_getElem.mp h i j hi hj hlt
  · subst heq
    exact Int.le_refl _

theorem sorted_count_le (s : List Int) (h : s.Pairwise (fun a b => a ≤ b))
    (k : Nat) (hk : k < s.length) :
    k + 1 ≤ s.countP (fun d => decide (d ≤ s[k])) ∧
    s.length - k ≤ s.countP (fun d => decide (s[k] ≤ d)) := by
  constructor
  · have h1 : (s.take (k + 1)).countP (fun d => decide (d ≤ s[k])) = (s.take (k + 1)).length := by
      rw [List.countP_eq_length]
      intro a ha
      obtain ⟨i, hi, rfl⟩ := List.mem_take_iff_getElem.mp ha
      have hi' : i < k + 1 ∧ i < s.length := by omega
      simpa using pairwise_le_getElem s h i k hi'.2 hk (by omega)
    have h2 := List.Sublist.countP_le (fun d => decide (d ≤ s[k])) (List.take_sublist (k + 1) s)
    rw [h1, List.length_take] at h2
    omega
  · have h1 : (s.drop k).countP (fun d => decide (s[k] ≤ d)) = (s.drop k).length := by
      rw [List.countP_eq_length]
      intro a ha
      obtain ⟨i, hi, rfl⟩ := List.mem_iff_getElem.mp ha
      rw [List.getElem_drop]
      have hi' : k + i < s.length := by
        rw [List.length_drop] at hi
        omega
      simpa using pairwise_le_getElem s h k (k + i) hk hi' (by omega)
    have h2 := List.Sublist.countP_le (fun d => decide (s[k] ≤ d)) (List.drop_sublist k s)
    rw [h1, List.length_drop] at h2
    exact h2

/-- C11: for a slice of durations of odd length `n`, `medianDuration` returns
the element at index `n/2` of the ascending sort, a value `m` of the input such
that at least `(n+1)/2` elements are `<= m` and at least `(n+1)/2` elements are
`>= m`. -/
theorem medianDuration_odd (durations : List Int) (hodd : durations.length % 2 = 1) :
    (sortDurations durations true).Pairwise (fun a b => a ≤ b) ∧
    (sortDurations durations true).Perm durations ∧
    ∃ m, medianDuration durations = some m ∧
      (sortDurations durations true)[durations.length / 2]? = some m ∧
      m ∈ durations ∧
      (durations.length + 1) / 2 ≤ durations.countP (fun d => decide (d ≤ m)) ∧
      (durations.length + 1) / 2 ≤ durations.countP (fun d => decide (m ≤ d)) := by
  obtain ⟨hs, hp⟩ := sortDurations_asc durations
  have hlen : (sortDurations durations true).length = durations.length := hp.length_eq
  have hk : durations.length / 2 < (sortDurations durations true).length := by omega
  have hget := List.getElem?_eq_getElem hk
  obtain ⟨c1, c2⟩ := sorted_count_le _ hs _ hk
  rw [hp.countP_eq] at c1 c2
  refine ⟨hs, hp, (sortDurations durations true)[durations.length / 2], ?_, hget,
    hp.subset (List.getElem_mem hk), by omega, by omega⟩
  unfold medianDuration
  simp only [hlen]
  rw [if_neg (by omega)]
  exact hget

/-- Witness for C11: the five durations 5, 1, 4, 2, 3. -/
theorem medianDuration_odd_witness :
    medianDuration [5, 1, 4, 2, 3] = some 3 ∧
    ((sortDurations [5, 1, 4, 2, 3] true).Pairwise (fun a b => a ≤ b) ∧
    (sortDurations [5, 1, 4, 2, 3] true).Perm [5, 1, 4, 2, 3] ∧
    ∃ m, medianDuration [5, 1, 4, 2, 3] = some m ∧
      (sortDurations [5, 1, 4, 2, 3] true)[([5, 1, 4, 2, 3] : List Int).length / 2]? = some m ∧
      m ∈ [5, 1, 4, 2, 3] ∧
      (([5, 1, 4, 2, 3] : List Int).length + 1) / 2 ≤
        List.countP (fun d => decide (d ≤ m)) [5, 1, 4, 2, 3] ∧
      (([5, 1, 4, 2, 3] : List Int).length + 1) / 2 ≤
        List.countP (fun d => decide (m ≤ d)) [5, 1, 4, 2, 3]) :=
  ⟨by decide, medianDuration_odd [5, 1, 4, 2, 3] (by decide)⟩

/-- C15: for a slice of durations of even length `n >= 4`, `medianDuration`
returns `(sorted[n/2] + sorted[n/2 + 1]) / 2`, with 0-based indices into the
ascending sort, the `int64` addition of the code and truncating division; when
the sum of the two elements fits `int64` this is their exact sum divided by 2.
It is the upper-middle element and the one after it that are combined. -/
theorem medianDuration_even (durations : List Int) (heven : durations.length % 2 = 0)
    (h4 : 4 ≤ durations.length) :
    (sortDurations durations true).Pairwise (fun a b => a ≤ b) ∧
    (sortDurations durations true).Perm durations ∧
    ∃ a b, (sortDurations durations true)[durations.length / 2]? = some a ∧
      (sortDurations durations true)[durations.length / 2 + 1]? = some b ∧
      medianDuration durations = some (Int.tdiv (wrapInt (a + b)) 2) ∧
      (minInt ≤ a + b → a + b ≤ maxInt →
        medianDuration durations = some (Int.tdiv (a + b) 2)) := by
  obtain ⟨hs, hp⟩ := sortDurations_asc durations
  have hlen : (sortDurations durations true).length = durations.length := hp.length_eq
  have hk : durations.length / 2 < (sortDurations durations true).length := by omega
  have hk1 : durations.length / 2 + 1 < (sortDurations durations true).length := by omega
  have hg := List.getElem?_eq_getElem hk
  have hg1 := List.getElem?_eq_getElem hk1
  have hmed : medianDuration durations =
      some (Int.tdiv (wrapInt ((sortDurations durations true)[durations.length / 2] +
        (sortDurations durations true)[durations.length / 2 + 1])) 2) := by
    unfold medianDuration
    simp only [hlen]
    rw [if_pos heven, hg, hg1]
  refine ⟨hs, hp, _, _, hg, hg1, hmed, ?_⟩
  intro hlo hhi
  rw [hmed, wrapInt_of_range _ hlo hhi]

/-- Witness for C15: on `[1, 2, 3, 4]` the result is 3, not 2. -/
theorem medianDuration_even_witness :
    medianDuration [1, 2, 3, 4] = some 3 ∧
    ((sortDurations [1, 2, 3, 4] true).Pairwise (fun a b => a ≤ b) ∧
    (sortDurations [1, 2, 3, 4] true).Perm [1, 2, 3, 4] ∧
    ∃ a b, (sortDurations [1, 2, 3, 4] true)[([1, 2, 3, 4] : List Int).length / 2]? = some a ∧
      (sortDurations [1, 2, 3, 4] true)[([1, 2, 3, 4] : List Int).length / 2 + 1]? = some b ∧
      medianDuration [1, 2, 3, 4] = some (Int.tdiv (wrapInt (a + b)) 2) ∧
      (minInt ≤ a + b → a + b ≤ maxInt →
        medianDuration [1, 2, 3, 4] = some (Int.tdiv (a + b) 2))) :=
  ⟨by decide, medianDuration_even [1, 2, 3, 4] (by decide) (by decide)⟩

/-! ## The letter list and the leading letters: claim C16 -/

theorem firstOccurrences_sublist (l : List Char) : (firstOccurrences l).Sublist l := by
  induction l with
  | nil => exact List.Sublist.refl _
  | cons c cs ih =>
    unfold firstOccurrences
    exact List.Sublist.cons₂ c ((List.filter_sublist _).trans ih)

theorem uniqueStringsLoop_eq (input m output : List Char)
    (hm : ∀ c, c ∈ m ↔ c ∈ output) :
    uniqueStringsLoop input m output =
      output ++ (firstOccurrences input).filter (fun x => decide (x ∉ output)) := by
  induction input generalizing m output with
  | nil => simp [uniqueStringsLoop, firstOccurrences]
  | cons val rest ih =>
    unfold uniqueStringsLoop firstOccurrences
    by_cases hv : val ∈ m
    · have hvo : val ∈ output := (hm val).mp hv
      rw [if_pos hv, ih m output hm, List.filter_cons]
      simp only [hvo, not_true_eq_false, decide_False, Bool.false_eq_true, if_false,
        List.filter_filter]
      congr 1
      apply List.filter_congr
      intro x _
      by_cases hx : x ∈ output
      · simp [hx]
      · have : x ≠ val := fun e => hx (e ▸ hvo)
        simp [hx, this]
    · have hvo : val ∉ output := fun h => hv ((hm val).mpr h)
      have hm' : ∀ c, c ∈ val :: m ↔ c ∈ output ++ [val] := by
        intro c
        simp [hm c, or_comm]
      rw [if_neg hv, ih (val :: m) (output ++ [val]) hm', List.filter_cons]
      simp only [hvo, not_false_eq_true, decide_True, if_true, List.filter_filter,
        List.append_assoc, List.singleton_append]
      congr 2
      apply List.filter_congr
      intro x _
      by_cases hx : x ∈ output <;> by_cases hxv : x = val <;> simp [hx, hxv]

theorem uniqueStrings_eq_firstOccurrences (input : List Char) :
    uniqueStrings input = firstOccurrences input := by
  unfold uniqueStrings
  rw [uniqueStringsLoop_eq input [] [] (by simp)]
  simp

/-- C16: for every puzzle with non-empty words and target, the preamble of the
search worker runs without a panic; its letter list has no duplicates,
contains exactly the letters that occur in a word or in the target, and keeps
them in first-occurrence order (it is the first-occurrence list of the words'
letters followed by the target's, a subsequence of it); its no-leading-zero set
contains exactly the first letters of the words and of the target. -/
theorem letters_and_leading_letters (words : List String) (answer : String)
    (hne : ∀ w ∈ words, Split w ≠ []) (hna : Split answer ≠ []) :
    ∃ firstLetters allChars, prepare words answer = some (firstLetters, allChars) ∧
      allChars.Nodup ∧
      (∀ c, c ∈ allChars ↔ (c ∈ Split answer ∨ ∃ w ∈ words, c ∈ Split w)) ∧
      allChars = firstOccurrences ((words.map Split).flatten ++ Split answer) ∧
      allChars.Sublist ((words.map Split).flatten ++ Split answer) ∧
      (∀ c, c ∈ firstLetters ↔ ∃ w ∈ answer :: words, (Split w).head? = some c) := by
  refine ⟨_, _, prepare_eq words answer hne hna, uniqueStrings_nodup _, ?_, ?_, ?_, ?_⟩
  · intro c
    rw [mem_uniqueStrings]
    unfold puzzleLetters
    rw [List.mem_append, List.mem_flatten]
    constructor
    · rintro (⟨l, hl, hc⟩ | h)
      · obtain ⟨w, hw, rfl⟩ := List.mem_map.mp hl
        exact Or.inr ⟨w, hw, hc⟩
      · exact Or.inl h
    · rintro (h | ⟨w, hw, hc⟩)
      · exact Or.inr h
      · exact Or.inl ⟨Split w, List.mem_map_of_mem _ hw, hc⟩
  · exact uniqueStrings_eq_firstOccurrences _
  · rw [uniqueStrings_eq_firstOccurrences]
    exact firstOccurrences_sublist _
  · intro c
    unfold leadingLetters
    rw [List.mem_filterMap]

/-- Witness for C16: the puzzle of `main`; its letter list is
`a l s n o m r e c h`, the letters `{a,l,s,c,h,n,o,m,r,e}` of the
specification, and its no-leading-zero set is `{a,l,n,m,c}`. -/
theorem letters_and_leading_letters_witness :
    prepare mainWords mainAnswer =
      some (['c', 'a', 'l', 'n', 'm'], ['a', 'l', 's', 'n', 'o', 'm', 'r', 'e', 'c', 'h']) ∧
    (['a', 'l', 's', 'n', 'o', 'm', 'r', 'e', 'c', 'h'] : List Char).Perm
      ['a', 'l', 's', 'c', 'h', 'n', 'o', 'm', 'r', 'e'] ∧
    (['c', 'a', 'l', 'n', 'm'] : List Char).Perm ['a', 'l', 'n', 'm', 'c'] ∧
    ∃ firstLetters allChars, prepare mainWords mainAnswer = some (firstLetters, allChars) ∧
      allChars.Nodup ∧
      (∀ c, c ∈ allChars ↔ (c ∈ Split mainAnswer ∨ ∃ w ∈ mainWords, c ∈ Split w)) ∧
      allChars = firstOccurrences ((mainWords.map Split).flatten ++ Split mainAnswer) ∧
      allChars.Sublist ((mainWords.map Split).flatten ++ Split mainAnswer) ∧
      (∀ c, c ∈ firstLetters ↔ ∃ w ∈ mainAnswer :: mainWords, (Split w).head? = some c) :=
  ⟨by decide, by decide, by decide,
    letters_and_leading_letters mainWords mainAnswer (by decide) (by decide)⟩

/-! ## The bounds of the repair: claim C17 -/

theorem repair_eq (fl : List Char) (val : Char) (i : Nat) (nums : List Nat)
    (hi : i < nums.length) (hlen : 2 ≤ nums.length) :
    repair fl val i nums =
      if val ∈ fl ∧ nums[i] = 0 then
        (if i + 1 ≤ nums.length - 1 then swapAt nums i (i + 1) else swapAt nums i (i - 1))
      else some nums := by
  unfold repair
  rw [List.getElem?_eq_getElem hi]
  by_cases hc : val ∈ fl ∧ nums[i] = 0
  · simp only [hc, and_self, if_true]
    by_cases hlast : (i : Int) + 1 > (nums.length : Int) - 1
    · have hj : ((i : Int) + -1).toNat = i - 1 := by omega
      have hnn : ¬ ((i : Int) + -1 < 0) := by omega
      have hle : ¬ i + 1 ≤ nums.length - 1 := by omega
      simp only [hlast, if_true, swapAtInt, hnn, if_false, hj, hle]
    · have hj : ((i : Int) + 1).toNat = i + 1 := by omega
      have hnn : ¬ ((i : Int) + 1 < 0) := by omega
      have hle : i + 1 ≤ nums.length - 1 := by omega
      simp only [hlast, if_false, swapAtInt, hnn, hj, hle, if_true]
  · simp only [hc, if_false]

/-- C17: for every letter list, every leading-letter set and
every draw (`N = max(9, L)`): from any state `cur` of the permutation and any
loop index `i < L`, the read `nums[i]` is in range; when the letter is a leading
letter and would receive 0 the repair swaps positions `i` and `i+1` if
`i+1 <= N-1` and positions `i` and `i-1` otherwise, both indices in `0..N-1`;
otherwise it leaves `nums` alone; the result is again a permutation of
`0..N-1`; and the whole loop runs to its end without a panic, leaving `nums` a
permutation of `0..N-1`. -/
theorem repair_within_bounds (firstLetters allChars : List Char) (rnd : Nat → Nat)
    (nums : List Nat)
    (hperm : nums.Perm (List.range (permLength allChars.length))) :
    (∀ (val : Char) (i : Nat) (cur : List Nat), i < allChars.length →
      cur.Perm (List.range (permLength allChars.length)) →
      ∃ v next, cur[i]? = some v ∧ repair firstLetters val i cur = some next ∧
        next.Perm (List.range (permLength allChars.length)) ∧
        (val ∈ firstLetters → v = 0 → i + 1 ≤ permLength allChars.length - 1 →
          i + 1 < cur.length ∧ swapAt cur i (i + 1) = some next) ∧
        (val ∈ firstLetters → v = 0 → ¬ i + 1 ≤ permLength allChars.length - 1 →
          1 ≤ i ∧ i - 1 < cur.length ∧ swapAt cur i (i - 1) = some next) ∧
        (¬ (val ∈ firstLetters ∧ v = 0) → next = cur)) ∧
    ∃ shuffled numsOut mapping, shuffleStrings allChars rnd = some shuffled ∧
      assignLoop firstLetters shuffled 0 nums [] = some (numsOut, mapping) ∧
      numsOut.Perm (List.range (permLength allChars.length)) := by
  have hN := permLength_ge allChars.length
  constructor
  · intro val i cur hi hcur
    have hlen : cur.length = permLength allChars.length := by
      rw [hcur.length_eq, List.length_range]
    have hic : i < cur.length := by omega
    have hcn : cur.Nodup := hcur.nodup_iff.mpr (List.nodup_range _)
    obtain ⟨next, w, hrep, _, _, _⟩ := repair_spec firstLetters val hcn (by omega) hic
    have heq := repair_eq firstLetters val i cur hic (by omega)
    refine ⟨cur[i], next, List.getElem?_eq_getElem hic, hrep, (repair_perm hrep).trans hcur,
      ?_, ?_, ?_⟩
    · intro hv hz hle
      rw [heq, if_pos ⟨hv, hz⟩, if_pos (by omega)] at hrep
      exact ⟨by omega, hrep⟩
    · intro hv hz hle
      rw [heq, if_pos ⟨hv, hz⟩, if_neg (by omega)] at hrep
      exact ⟨by omega, by omega, hrep⟩
    · intro hc
      rw [heq, if_neg hc] at hrep
      injection hrep with hrep
      exact hrep.symm
  · obtain ⟨shuffled, hsh, hsp⟩ := shuffleStrings_perm allChars rnd
    have hlen : nums.length = permLength allChars.length := by
      rw [hperm.length_eq, List.length_range]
    have hnn : nums.Nodup := hperm.nodup_iff.mpr (List.nodup_range _)
    have hsl : shuffled.length = allChars.length := hsp.length_eq
    obtain ⟨out, hout⟩ := assignLoop_some firstLetters shuffled 0 nums [] hnn (by omega)
      (by omega)
    exact ⟨shuffled, out.1, out.2, hsh, hout,
      (assignLoop_nums_perm _ _ _ _ _ _ hout).trans hperm⟩

/-- Witness for C17: nine letters with leading letter `i` and the permutation
that ends in 0, where the repair at the last index swaps with the previous
one. -/
theorem repair_within_bounds_witness :
    repair ['i'] 'i' 8 [3, 4, 5, 6, 7, 8, 2, 1, 0] = some [3, 4, 5, 6, 7, 8, 2, 0, 1] ∧
    ((∀ (val : Char) (i : Nat) (cur : List Nat),
      i < (['a', 'b', 'c', 'd', 'e', 'f', 'g', 'h', 'i'] : List Char).length →
      cur.Perm (List.range
        (permLength (['a', 'b', 'c', 'd', 'e', 'f', 'g', 'h', 'i'] : List Char).length)) →
      ∃ v next, cur[i]? = some v ∧ repair ['i'] val i cur = some next ∧
        next.Perm (List.range
          (permLength (['a', 'b', 'c', 'd', 'e', 'f', 'g', 'h', 'i'] : List Char).length)) ∧
        (val ∈ ['i'] → v = 0 →
          i + 1 ≤ permLength (['a', 'b', 'c', 'd', 'e', 'f', 'g', 'h', 'i'] : List Char).length
            - 1 →
          i + 1 < cur.length ∧ swapAt cur i (i + 1) = some next) ∧
        (val ∈ ['i'] → v = 0 →
          ¬ i + 1 ≤ permLength (['a', 'b', 'c', 'd', 'e', 'f', 'g', 'h', 'i'] : List Char).length
            - 1 →
          1 ≤ i ∧ i - 1 < cur.length ∧ swapAt cur i (i - 1) = some next) ∧
        (¬ (val ∈ ['i'] ∧ v = 0) → next = cur)) ∧
    ∃ shuffled numsOut mapping,
      shuffleStrings ['a', 'b', 'c', 'd', 'e', 'f', 'g', 'h', 'i'] id = some shuffled ∧
      assignLoop ['i'] shuffled 0 [3, 4, 5, 6, 7, 8, 2, 1, 0] [] = some (numsOut, mapping) ∧
      numsOut.Perm (List.range
        (permLength (['a', 'b', 'c', 'd', 'e', 'f', 'g', 'h', 'i'] : List Char).length))) :=
  ⟨by decide,
    repair_within_bounds ['i'] ['a', 'b', 'c', 'd', 'e', 'f', 'g', 'h', 'i'] id
      [3, 4, 5, 6, 7, 8, 2, 1, 0] (by decide)⟩

/-! ## The leading-zero skip on assigner-produced mappings: claim C18 -/

theorem toDigitsCore_spec (fuel n : Nat) (ds : List Char) (h : n < fuel) :
    ∃ d0 rest, Nat.toDigitsCore 10 fuel n ds = Nat.digitChar d0 :: rest ++ ds ∧ d0 ≤ 9 ∧
      (0 < n → d0 ≠ 0) ∧ ∀ c ∈ rest, ∃ d, d ≤ 9 ∧ c = Nat.digitChar d := by
  induction fuel generalizing n ds with
  | zero => omega
  | succ fuel ih =>
    simp only [Nat.toDigitsCore]
    by_cases hz : n / 10 = 0
    · rw [if_pos hz]
      refine ⟨n % 10, [], by simp, by omega, by omega, by simp⟩
    · rw [if_neg hz]
      obtain ⟨d0, rest, he, hd0, hnz, hrest⟩ :=
        ih (n / 10) (Nat.digitChar (n % 10) :: ds) (by omega)
      refine ⟨d0, rest ++ [Nat.digitChar (n % 10)], by simp [he], hd0,
        fun _ => hnz (by omega), ?_⟩
      intro c hc
      rcases List.mem_append.mp hc with hc | hc
      · exact hrest c hc
      · rw [List.mem_singleton] at hc
        exact ⟨n % 10, by omega, hc⟩

theorem formatInt_spec (v : Nat) :
    ∃ d0 rest, FormatInt v = Nat.digitChar d0 :: rest ∧ d0 ≤ 9 ∧ (v ≠ 0 → d0 ≠ 0) ∧
      ∀ c ∈ rest, ∃ d, d ≤ 9 ∧ c = Nat.digitChar d := by
  obtain ⟨d0, rest, he, hd0, hnz, hrest⟩ := toDigitsCore_spec (v + 1) v [] (by omega)
  refine ⟨d0, rest, ?_, hd0, fun hv => hnz (Nat.pos_of_ne_zero hv), hrest⟩
  unfold FormatInt Nat.toDigits
  rw [he]
  simp

theorem numeral_digits (m : Mapping) (w : List Char) :
    ∀ c ∈ numeral m w, ∃ d, d ≤ 9 ∧ c = Nat.digitChar d := by
  induction w with
  | nil => simp [numeral]
  | cons x xs ih =>
    intro c hc
    unfold numeral at hc
    rcases List.mem_append.mp hc with hc | hc
    · obtain ⟨d0, rest, he, hd0, _, hrest⟩ := formatInt_spec (mapGet m x)
      rw [he] at hc
      rcases List.mem_cons.mp hc with hc | hc
      · exact ⟨d0, hd0, hc⟩
      · exact hrest c hc
    · exact ih c hc

theorem numeral_leading (m : Mapping) (x : Char) (xs : List Char) (hx : mapGet m x ≠ 0) :
    ∃ d0 rest, numeral m (x :: xs) = Nat.digitChar d0 :: rest ∧ d0 ≤ 9 ∧ d0 ≠ 0 ∧
      ∀ c ∈ rest, ∃ d, d ≤ 9 ∧ c = Nat.digitChar d := by
  obtain ⟨d0, rest, he, hd0, hnz, hrest⟩ := formatInt_spec (mapGet m x)
  refine ⟨d0, rest ++ numeral m xs, ?_, hd0, hnz hx, ?_⟩
  · rw [show numeral m (x :: xs) = FormatInt (mapGet m x) ++ numeral m xs from rfl, he]
    simp
  · intro c hc
    rcases List.mem_append.mp hc with hc | hc
    · exact hrest c hc
    · exact numeral_digits m xs c hc

theorem parseDigits_ge (s : List Char) (n : Nat)
    (h : ∀ c ∈ s, ∃ d, d ≤ 9 ∧ c = Nat.digitChar d) :
    ∃ r, parseDigits s n = some r ∧ n ≤ r := by
  induction s generalizing n with
  | nil => exact ⟨n, rfl, Nat.le_refl _⟩
  | cons c cs ih =>
    obtain ⟨d, hd, rfl⟩ := h c (List.mem_cons_self _ _)
    obtain ⟨r, hr, hle⟩ := ih (n * 10 + d) (fun x hx => h x (List.mem_cons_of_mem _ hx))
    refine ⟨r, ?_, by omega⟩
    simp only [parseDigits, digitVal_digitChar d hd]
    exact hr

theorem atoi_ne_zero (d0 : Nat) (rest : List Char) (hd0 : d0 ≤ 9) (hnz : d0 ≠ 0)
    (hrest : ∀ c ∈ rest, ∃ d, d ≤ 9 ∧ c = Nat.digitChar d) :
    (Atoi (Nat.digitChar d0 :: rest)).1 ≠ 0 := by
  have hs := digitChar_not_sign d0 hd0
  have hm : Nat.digitChar d0 ≠ '-' := fun e => hs (Or.inl e)
  have hq : Nat.digitChar d0 ≠ '+' := fun e => hs (Or.inr e)
  obtain ⟨r, hr, hle⟩ := parseDigits_ge rest (0 * 10 + d0) hrest
  have hp : parseDigits (Nat.digitChar d0 :: rest) 0 = some r := by
    simp only [parseDigits, digitVal_digitChar d0 hd0]
    exact hr
  simp only [Atoi, if_false, hm, hq, decide_False, Bool.false_eq_true, or_self]
  rw [hp]
  simp only
  by_cases hfit : (r : Int) ≤ maxInt
  · rw [if_pos hfit]
    simp only [ne_eq]
    omega
  · rw [if_neg hfit]
    decide

theorem buildSum_eq_all (m : Mapping) (words : List String) (acc : List Int)
    (h : ∀ w ∈ words, ∃ c cs, Split w = c :: cs ∧ mapGet m c ≠ 0) :
    buildSum m words acc = some (buildSumAll m words acc) := by
  induction words generalizing acc with
  | nil => rfl
  | cons word rest ih =>
    obtain ⟨c, cs, hsp, hc⟩ := h word (List.mem_cons_self _ _)
    obtain ⟨d0, tail, hnum, hd0, hnz, htail⟩ := numeral_leading m c cs hc
    have h0 : ¬ Nat.digitChar d0 = '0' := fun e => hnz ((digitChar_eq_zero d0 hd0).mp e)
    have hat := atoi_ne_zero d0 tail hd0 hnz htail
    unfold buildSum buildSumAll
    rw [hsp, hnum]
    simp only [h0, if_false, hat, ne_eq, not_false_eq_true, if_true]
    exact ih _ (fun w hw => h w (List.mem_cons_of_mem _ hw))

/-- C18: for every puzzle with non-empty words and target and every draw, the
mapping the digit assigner builds gives every addend a numeral that does not
start with `0` and does not parse to 0, so the leading-zero skip is never
taken: the loop "Build the sum" yields the same slice as the loop that adds
every addend unconditionally, and the evaluator gives the same verdict. -/
theorem skip_branch_never_taken (words : List String) (answer : String) (d : Draw)
    (hne : ∀ w ∈ words, Split w ≠ []) (hna : Split answer ≠ [])
    (hperm : (d.perm (permLength (uniqueStrings (puzzleLetters words answer)).length)).Perm
      (List.range (permLength (uniqueStrings (puzzleLetters words answer)).length))) :
    ∃ firstLetters allChars shuffled mapping,
      prepare words answer = some (firstLetters, allChars) ∧
      shuffleStrings allChars d.rnd = some shuffled ∧
      assign firstLetters shuffled (d.perm (permLength shuffled.length)) = some mapping ∧
      (∀ w ∈ words, (numeral mapping (Split w)).head? ≠ none ∧
        (numeral mapping (Split w)).head? ≠ some '0' ∧
        (Atoi (numeral mapping (Split w))).1 ≠ 0) ∧
      buildSum mapping words [] = some (buildSumAll mapping words []) ∧
      evaluate mapping words (Split answer) =
        some (evaluateAll mapping words (Split answer)) := by
  have hnd := uniqueStrings_nodup (puzzleLetters words answer)
  obtain ⟨shuffled, mapping, h1, h2, h3, _, _, h6, _⟩ :=
    assigner_spec (leadingLetters words answer) _ d.rnd _ hnd hperm
  have hlead : ∀ w ∈ words, ∃ c cs, Split w = c :: cs ∧ mapGet mapping c ≠ 0 := by
    intro w hw
    cases hsp : Split w with
    | nil => exact absurd hsp (hne w hw)
    | cons c cs =>
      refine ⟨c, cs, rfl, ?_⟩
      obtain ⟨hp1, hp2⟩ := mem_puzzleLetters_of_head words answer w
        (List.mem_cons_of_mem _ hw) c (by rw [hsp]; rfl)
      exact h6 c ((mem_uniqueStrings _ c).mpr hp1) hp2
  have hbs := buildSum_eq_all mapping words [] hlead
  refine ⟨_, _, shuffled, mapping, prepare_eq words answer hne hna, h1, ?_, ?_, hbs, ?_⟩
  · rw [h2.length_eq]
    exact h3
  · intro w hw
    obtain ⟨c, cs, hsp, hc⟩ := hlead w hw
    obtain ⟨d0, tail, hnum, hd0, hnz, htail⟩ := numeral_leading mapping c cs hc
    rw [hsp, hnum]
    refine ⟨by simp, ?_, atoi_ne_zero d0 tail hd0 hnz htail⟩
    simp only [List.head?_cons, ne_eq, Option.some.injEq]
    exact fun e => hnz ((digitChar_eq_zero d0 hd0).mp e)
  · unfold evaluate evaluateAll
    rw [hbs]
    simp only
    cases Atoi (numeral mapping (Split answer)) with
    | mk v e =>
      cases e <;> simp

/-- Witness for C18: the puzzle `ab + c = dd` with the identity shuffle and a
permutation that starts with 0. -/
theorem skip_branch_never_taken_witness :
    ∃ firstLetters allChars shuffled mapping,
      prepare ["ab", "c"] "dd" = some (firstLetters, allChars) ∧
      shuffleStrings allChars id = some shuffled ∧
      assign firstLetters shuffled [0, 1, 2, 3, 4, 5, 6, 7, 8] = some mapping ∧
      (∀ w ∈ ["ab", "c"], (numeral mapping (Split w)).head? ≠ none ∧
        (numeral mapping (Split w)).head? ≠ some '0' ∧
        (Atoi (numeral mapping (Split w))).1 ≠ 0) ∧
      buildSum mapping ["ab", "c"] [] = some (buildSumAll mapping ["ab", "c"] []) ∧
      evaluate mapping ["ab", "c"] (Split "dd") =
        some (evaluateAll mapping ["ab", "c"] (Split "dd")) :=
  skip_branch_never_taken ["ab", "c"] "dd" ⟨id, fun _ => [0, 1, 2, 3, 4, 5, 6, 7, 8]⟩
    (by decide) (by decide) (by decide)

/-! ## Injectivity and the previous-index branch: claim C19 -/

theorem takesPrevious_eq (fl : List Char) (val : Char) (i : Nat) (nums : List Nat)
    (hi : i < nums.length) :
    takesPrevious fl val i nums =
      decide (val ∈ fl ∧ nums[i] = 0 ∧ ¬ i + 1 ≤ nums.length - 1) := by
  unfold takesPrevious
  rw [List.getElem?_eq_getElem hi]
  simp only
  rw [decide_eq_decide]
  constructor
  · rintro ⟨h1, h2, h3⟩
    exact ⟨h1, h2, by omega⟩
  · rintro ⟨h1, h2, h3⟩
    exact ⟨h1, h2, by omega⟩

theorem repair_frame_of_not_previous (fl : List Char) (val : Char) (i : Nat)
    (nums nums1 : List Nat) (hi : i < nums.length) (hlen : 2 ≤ nums.length)
    (hp : takesPrevious fl val i nums = false) (hr : repair fl val i nums = some nums1) :
    ∀ k, k < i → nums1[k]? = nums[k]? := by
  rw [takesPrevious_eq fl val i nums hi] at hp
  simp only [decide_eq_false_iff_not] at hp
  rw [repair_eq fl val i nums hi hlen] at hr
  intro k hk
  by_cases hc : val ∈ fl ∧ nums[i] = 0
  · have hle : i + 1 ≤ nums.length - 1 := by
      by_contra hcon
      exact hp ⟨hc.1, hc.2, hcon⟩
    rw [if_pos hc, if_pos hle] at hr
    rw [swapAt_getElem? hr k]
    have h1 : k ≠ i + 1 := by omega
    have h2 : k ≠ i := by omega
    simp [h1, h2]
  · rw [if_neg hc] at hr
    injection hr with hr
    rw [hr]

theorem assignLoop_forward_of_not_previous (fl : List Char) (rest : List Char) (i : Nat)
    (nums : List Nat) (m : Mapping) (out : List Nat × Mapping)
    (h : assignLoop fl rest i nums m = some out)
    (hlen : 2 ≤ nums.length) (hi : i + rest.length ≤ nums.length) (hr : rest.Nodup)
    (hnp : anyPrevious fl rest i nums = false) :
    (∀ k, k < i → out.1[k]? = nums[k]?) ∧
    (∀ k c, rest[k]? = some c → out.1[i + k]? = some (mapGet out.2 c)) := by
  induction rest generalizing i nums m with
  | nil =>
    unfold assignLoop at h
    injection h with h
    subst h
    simp
  | cons val rest ih =>
    simp only [List.length_cons] at hi
    obtain ⟨nums1, w, h1, h2, h3⟩ := assignLoop_cons_some h
    unfold anyPrevious at hnp
    rw [h1] at hnp
    simp only [Bool.or_eq_false_iff] at hnp
    have hf := repair_frame_of_not_previous fl val i nums nums1 (by omega) hlen hnp.1 h1
    have hp := repair_perm h1
    rw [List.nodup_cons] at hr
    obtain ⟨ihA, ihB⟩ := ih (i + 1) nums1 (mapSet m val w) h3
        (by rw [hp.length_eq]; exact hlen) (by rw [hp.length_eq]; omega) hr.2 hnp.2
    constructor
    · intro k hk
      rw [ihA k (by omega), hf k hk]
    · intro k c hkc
      cases k with
      | zero =>
        simp only [List.getElem?_cons_zero, Option.some.injEq] at hkc
        subst hkc
        rw [assignLoop_frame _ _ _ _ _ _ h3 val hr.1, mapGet_mapSet]
        simp only [if_true, Nat.add_zero]
        rw [ihA i (by omega), h2]
      | succ k =>
        simp only [List.getElem?_cons_succ] at hkc
        have := ihB k c hkc
        rw [← this]
        congr 1
        omega

theorem assignLoop_previous_duplicates (fl : List Char) (rest : List Char) (i : Nat)
    (nums : List Nat) (m : Mapping) (prev : Char) (out : List Nat × Mapping)
    (h : assignLoop fl rest i nums m = some out)
    (hlen : 2 ≤ nums.length) (h1i : 1 ≤ i) (hi : i + rest.length ≤ nums.length)
    (hr : (prev :: rest).Nodup) (hprev : nums[i - 1]? = some (mapGet m prev))
    (hp : anyPrevious fl rest i nums = true) :
    i + rest.length = nums.length ∧
    ∃ a b pre, prev :: rest = pre ++ [a, b] ∧ b ∈ fl ∧ mapGet out.2 a = mapGet out.2 b := by
  induction rest generalizing i nums m prev with
  | nil =>
    unfold anyPrevious at hp
    exact absurd hp (by simp)
  | cons val rest ih =>
    simp only [List.length_cons] at hi
    have hil : i < nums.length := by omega
    obtain ⟨nums1, w, hrep, h2, h3⟩ := assignLoop_cons_some h
    have hperm := repair_perm hrep
    rw [List.nodup_cons] at hr
    unfold anyPrevious at hp
    rw [hrep] at hp
    simp only [Bool.or_eq_true] at hp
    by_cases htp : takesPrevious fl val i nums = true
    · rw [takesPrevious_eq fl val i nums hil] at htp
      simp only [decide_eq_true_eq] at htp
      obtain ⟨hv, hz, hlast⟩ := htp
      have hrl : rest.length = 0 := by omega
      have hrn : rest = [] := List.length_eq_zero.mp hrl
      subst hrn
      rw [repair_eq fl val i nums hil hlen, if_pos ⟨hv, hz⟩, if_neg hlast] at hrep
      have hw := swapAt_getElem? hrep i
      have hne : i ≠ i - 1 := by omega
      simp only [hne, if_false, if_true] at hw
      rw [h2, hprev] at hw
      injection hw with hw
      unfold assignLoop at h3
      injection h3 with h3
      subst h3
      refine ⟨by simp; omega, prev, val, [], rfl, hv, ?_⟩
      simp only [mapGet_mapSet, if_true]
      have hpv : val ≠ prev := by
        intro e
        apply hr.1
        rw [e]
        exact List.mem_cons_self _ _
      simp only [hpv, if_false]
      exact hw.symm
    · have hrec : anyPrevious fl rest (i + 1) nums1 = true := by
        rcases hp with hp | hp
        · exact absurd hp htp
        · exact hp
      have hv : nums1[i + 1 - 1]? = some (mapGet (mapSet m val w) val) := by
        rw [mapGet_mapSet]
        simp only [if_true, Nat.add_sub_cancel]
        exact h2
      obtain ⟨hl, a, b, pre, hsplit, hb, hab⟩ := ih (i + 1) nums1 (mapSet m val w) val h3
        (by rw [hperm.length_eq]; exact hlen) (by omega)
        (by rw [hperm.length_eq]; omega) hr.2 hv hrec
      rw [hperm.length_eq] at hl
      refine ⟨by simp only [List.length_cons]; omega, a, b, prev :: pre, ?_, hb, hab⟩
      rw [hsplit]
      rfl

theorem anyPrevious_false_of_lt (fl : List Char) (rest : List Char) (i : Nat)
    (nums : List Nat) (hi : i + rest.length < nums.length) :
    anyPrevious fl rest i nums = false := by
  induction rest generalizing i nums with
  | nil => rfl
  | cons val rest ih =>
    simp only [List.length_cons] at hi
    unfold anyPrevious
    have htp : takesPrevious fl val i nums = false := by
      rw [takesPrevious_eq fl val i nums (by omega)]
      simp only [decide_eq_false_iff_not]
      rintro ⟨_, _, h⟩
      omega
    rw [htp, Bool.false_or]
    cases hrep : repair fl val i nums with
    | none => rfl
    | some nums1 =>
      simp only
      exact ih (i + 1) nums1 (by rw [(repair_perm hrep).length_eq]; omega)

/-- C19: for every duplicate-free letter list, every leading-letter set and
every draw, the digit assignment runs to its end; with at most 8 letters the
mapping is injective; for any `L`, two distinct letters share a digit exactly
when some iteration of the repair takes its previous-index branch; and when it
does, `L = N >= 9`, the letter at the last position `N-1` is a leading letter
and receives the same digit as the letter at position `N-2`. -/
theorem assigner_injective_iff_no_previous (firstLetters allChars : List Char)
    (rnd : Nat → Nat) (nums : List Nat) (hnd : allChars.Nodup)
    (hperm : nums.Perm (List.range (permLength allChars.length))) :
    ∃ shuffled mapping, shuffleStrings allChars rnd = some shuffled ∧
      assign firstLetters shuffled nums = some mapping ∧
      (allChars.length ≤ 8 →
        ∀ a ∈ allChars, ∀ b ∈ allChars, mapGet mapping a = mapGet mapping b → a = b) ∧
      ((∃ a ∈ allChars, ∃ b ∈ allChars, a ≠ b ∧ mapGet mapping a = mapGet mapping b) ↔
        anyPrevious firstLetters shuffled 0 nums = true) ∧
      (anyPrevious firstLetters shuffled 0 nums = true →
        allChars.length = permLength allChars.length ∧ 9 ≤ allChars.length ∧
        ∃ a b, shuffled[permLength allChars.length - 2]? = some a ∧
          shuffled[permLength allChars.length - 1]? = some b ∧ a ≠ b ∧
          b ∈ firstLetters ∧ mapGet mapping a = mapGet mapping b) := by
  obtain ⟨shuffled, hsh, hsp⟩ := shuffleStrings_perm allChars rnd
  have hN := permLength_ge allChars.length
  have hlen : nums.length = permLength allChars.length := by
    rw [hperm.length_eq, List.length_range]
  have hnn : nums.Nodup := hperm.nodup_iff.mpr (List.nodup_range _)
  have hsn : shuffled.Nodup := hsp.nodup_iff.mpr hnd
  have hsl : shuffled.length = allChars.length := hsp.length_eq
  obtain ⟨out, hout⟩ := assignLoop_some firstLetters shuffled 0 nums [] hnn (by omega)
    (by omega)
  have hon : out.1.Nodup :=
    (assignLoop_nums_perm firstLetters shuffled 0 nums [] out hout).nodup_iff.mpr hnn
  have hinj : anyPrevious firstLetters shuffled 0 nums = false →
      ∀ a ∈ allChars, ∀ b ∈ allChars, mapGet out.2 a = mapGet out.2 b → a = b := by
    intro hnp a ha b hb hab
    obtain ⟨_, hfw⟩ := assignLoop_forward_of_not_previous firstLetters shuffled 0 nums []
      out hout (by omega) (by omega) hsn hnp
    obtain ⟨ka, hka⟩ := List.getElem?_of_mem (hsp.symm.subset ha)
    obtain ⟨kb, hkb⟩ := List.getElem?_of_mem (hsp.symm.subset hb)
    have h1 := hfw ka a hka
    have h2 := hfw kb b hkb
    rw [Nat.zero_add] at h1 h2
    rw [hab] at h1
    obtain ⟨ha1, ha2⟩ := List.getElem?_eq_some_iff.mp h1
    obtain ⟨hb1, hb2⟩ := List.getElem?_eq_some_iff.mp h2
    have hk : ka = kb := (hon.getElem_inj_iff).mp (ha2.trans hb2.symm)
    subst hk
    rw [hka] at hkb
    injection hkb
  have hdup : anyPrevious firstLetters shuffled 0 nums = true →
      allChars.length = permLength allChars.length ∧ 9 ≤ allChars.length ∧
      ∃ a b, shuffled[permLength allChars.length - 2]? = some a ∧
        shuffled[permLength allChars.length - 1]? = some b ∧ a ≠ b ∧
        b ∈ firstLetters ∧ mapGet out.2 a = mapGet out.2 b := by
    intro hp
    cases hs : shuffled with
    | nil =>
      rw [hs] at hp
      exact absurd hp (by simp [anyPrevious])
    | cons a0 rest =>
      rw [hs] at hp hout hsn hsl
      simp only [List.length_cons] at hsl
      obtain ⟨nums1, w, hrep, h2, h3⟩ := assignLoop_cons_some hout
      have hpm := repair_perm hrep
      have htp : takesPrevious firstLetters a0 0 nums = false := by
        rw [takesPrevious_eq firstLetters a0 0 nums (by omega)]
        simp only [decide_eq_false_iff_not]
        rintro ⟨_, _, h⟩
        omega
      unfold anyPrevious at hp
      rw [htp, hrep, Bool.false_or] at hp
      simp only at hp
      have hv : nums1[1 - 1]? = some (mapGet (mapSet [] a0 w) a0) := by
        rw [mapGet_mapSet]
        simp only [if_true]
        exact h2
      obtain ⟨hl, a, b, pre, hsplit, hb, hab⟩ :=
        assignLoop_previous_duplicates firstLetters rest 1 nums1 (mapSet [] a0 w) a0 out h3
          (by rw [hpm.length_eq]; omega) (Nat.le_refl 1) (by rw [hpm.length_eq]; omega)
          hsn hv hp
      rw [hpm.length_eq] at hl
      have hL : allChars.length = permLength allChars.length := by omega
      have hpl : pre.length + 2 = permLength allChars.length := by
        have := congrArg List.length hsplit
        simp only [List.length_cons, List.length_append, List.length_nil] at this
        omega
      rw [hsplit] at hsn
      have hne : a ≠ b := by
        intro e
        rw [List.nodup_append] at hsn
        have := hsn.2.1
        rw [e] at this
        simp at this
      refine ⟨hL, by omega, a, b, ?_, ?_, hne, hb, hab⟩
      · rw [hsplit]
        have e : permLength allChars.length - 2 = pre.length := by omega
        rw [e, List.getElem?_append_right (Nat.le_refl _)]
        simp
      · rw [hsplit]
        have e : permLength allChars.length - 1 = pre.length + 1 := by omega
        rw [e, List.getElem?_append_right (by omega)]
        simp
  refine ⟨shuffled, out.2, hsh, ?_, ?_, ?_, hdup⟩
  · unfold assign
    rw [hout]
  · intro h8
    exact hinj (anyPrevious_false_of_lt firstLetters shuffled 0 nums (by omega))
  · constructor
    · rintro ⟨a, ha, b, hb, hne, hab⟩
      by_contra hcon
      have hf : anyPrevious firstLetters shuffled 0 nums = false := by
        simpa using hcon
      exact hne (hinj hf a ha b hb hab)
    · intro hp
      obtain ⟨_, _, a, b, ha, hb, hne, _, hab⟩ := hdup hp
      exact ⟨a, hsp.subset (List.getElem?_mem ha), b, hsp.subset (List.getElem?_mem hb),
        hne, hab⟩

/-- Witness for C19: nine letters with leading letter `i` and the permutation
that ends in 0: the previous-index branch is taken and `h` and `i` share a
digit. -/
theorem assigner_injective_iff_no_previous_witness :
    anyPrevious ['i'] ['a', 'b', 'c', 'd', 'e', 'f', 'g', 'h', 'i'] 0
      [3, 4, 5, 6, 7, 8, 2, 1, 0] = true ∧
    ∃ shuffled mapping,
      shuffleStrings ['a', 'b', 'c', 'd', 'e', 'f', 'g', 'h', 'i'] id = some shuffled ∧
      assign ['i'] shuffled [3, 4, 5, 6, 7, 8, 2, 1, 0] = some mapping ∧
      ((['a', 'b', 'c', 'd', 'e', 'f', 'g', 'h', 'i'] : List Char).length ≤ 8 →
        ∀ a ∈ ['a', 'b', 'c', 'd', 'e', 'f', 'g', 'h', 'i'],
        ∀ b ∈ ['a', 'b', 'c', 'd', 'e', 'f', 'g', 'h', 'i'],
          mapGet mapping a = mapGet mapping b → a = b) ∧
      ((∃ a ∈ ['a', 'b', 'c', 'd', 'e', 'f', 'g', 'h', 'i'],
        ∃ b ∈ ['a', 'b', 'c', 'd', 'e', 'f', 'g', 'h', 'i'],
          a ≠ b ∧ mapGet mapping a = mapGet mapping b) ↔
        anyPrevious ['i'] shuffled 0 [3, 4, 5, 6, 7, 8, 2, 1, 0] = true) ∧
      (anyPrevious ['i'] shuffled 0 [3, 4, 5, 6, 7, 8, 2, 1, 0] = true →
        (['a', 'b', 'c', 'd', 'e', 'f', 'g', 'h', 'i'] : List Char).length =
          permLength (['a', 'b', 'c', 'd', 'e', 'f', 'g', 'h', 'i'] : List Char).length ∧
        9 ≤ (['a', 'b', 'c', 'd', 'e', 'f', 'g', 'h', 'i'] : List Char).length ∧
        ∃ a b,
          shuffled[permLength (['a', 'b', 'c', 'd', 'e', 'f', 'g', 'h', 'i'] : List Char).length
            - 2]? = some a ∧
          shuffled[permLength (['a', 'b', 'c', 'd', 'e', 'f', 'g', 'h', 'i'] : List Char).length
            - 1]? = some b ∧ a ≠ b ∧
          b ∈ ['i'] ∧ mapGet mapping a = mapGet mapping b) :=
  ⟨by decide,
    assigner_injective_iff_no_previous ['i'] ['a', 'b', 'c', 'd', 'e', 'f', 'g', 'h', 'i'] id
      [3, 4, 5, 6, 7, 8, 2, 1, 0] (by decide) (by decide)⟩

/-! ## The shared random source: claim C13 -/

/-- C13 (the code departs from the claim): the workers do not own their random
streams. When worker 2 is created between the creation and the run of worker
1, worker 1 draws from the stream of worker 2's seed while its Result carries
its own seed. For the puzzle `a + b = c` and a generator whose stream for seed
1 starts with the permutation `[1,2,3,...]` and for seed 2 with `[2,1,3,...]`,
worker 1 alone returns `a:1 b:2 c:3` with seed 1, but after the creation of
worker 2 it returns `a:2 b:1 c:3`, still with seed 1. -/
theorem worker_draws_depend_on_other_worker :
    (∀ (gen : Int → List Draw) (now1 now2 : Int) (words : List String) (answer : String)
      (globalSource : List Draw),
      workerOneAfterWorkerTwo gen now1 now2 words answer globalSource =
        tryRun (wrapInt (now1 * 1)) words answer (gen (wrapInt (now2 * 2)))) ∧
    workerOneAlone
      (fun seed => if seed = 1 then [⟨id, fun _ => [1, 2, 3, 0, 4, 5, 6, 7, 8]⟩]
        else [⟨id, fun _ => [2, 1, 3, 0, 4, 5, 6, 7, 8]⟩])
      1 ["a", "b"] "c" [] = Iter.ret ⟨[('a', 1), ('b', 2), ('c', 3)], 1⟩ ∧
    workerOneAfterWorkerTwo
      (fun seed => if seed = 1 then [⟨id, fun _ => [1, 2, 3, 0, 4, 5, 6, 7, 8]⟩]
        else [⟨id, fun _ => [2, 1, 3, 0, 4, 5, 6, 7, 8]⟩])
      1 1 ["a", "b"] "c" [] = Iter.ret ⟨[('a', 2), ('b', 1), ('c', 3)], 1⟩ := by
  refine ⟨fun _ _ _ _ _ _ => rfl, by decide, by decide⟩

/-! ## Fastest and slowest: claim C9 -/

theorem insertionSort_contract {α : Type} (less : α → α → Bool)
    (hasym : ∀ a b, less a b = true → less b a = false)
    (htrans : ∀ a b c, less b a = false → less c b = false → less c a = false)
    (l : List α) : SortSliceContract less l (insertionSort less l) :=
  ⟨insertionSort_perm less l, insertionSort_pairwise less hasym htrans l⟩

theorem sampleLess_contract_insertionSort (asc : Bool) (samples : List Sample) :
    SortSliceContract (sampleLess asc) samples (insertionSort (sampleLess asc) samples) := by
  apply insertionSort_contract
  · intro a b
    cases asc <;> simp [sampleLess] <;> omega
  · intro a b c
    cases asc <;> simp [sampleLess] <;> omega

theorem sortDurations_of_contract (durations out : List Int) (asc : Bool)
    (h : SortSliceContract (fun a b : Int => if asc then decide (a < b) else decide (a > b))
      durations out) :
    out = sortDurations durations asc := by
  have hs := insertionSort_contract
    (fun a b : Int => if asc then decide (a < b) else decide (a > b))
    (by intro a b; cases asc <;> simp <;> omega)
    (by intro a b c; cases asc <;> simp <;> omega) durations
  have hperm : out.Perm (sortDurations durations asc) := h.1.trans hs.1.symm
  cases asc with
  | true =>
    have h1 : out.Pairwise (fun a b : Int => a ≤ b) :=
      List.Pairwise.imp (fun {a b} hab => by simpa using hab) h.2
    have h2 : (sortDurations durations true).Pairwise (fun a b : Int => a ≤ b) :=
      List.Pairwise.imp (fun {a b} hab => by simpa using hab) hs.2
    exact List.eq_of_perm_of_sorted hperm h1 h2
  | false =>
    have h1 : out.Pairwise (fun a b : Int => a ≥ b) :=
      List.Pairwise.imp (fun {a b} hab => by simpa using hab) h.2
    have h2 : (sortDurations durations false).Pairwise (fun a b : Int => a ≥ b) :=
      List.Pairwise.imp (fun {a b} hab => by simpa using hab) hs.2
    exact List.eq_of_perm_of_sorted hperm h1 h2

theorem contract_first {α : Type} (less : α → α → Bool) (input output : List α)
    (h : SortSliceContract less input output) (hne : input ≠ []) :
    ∃ first, output[0]? = some first ∧ first ∈ input ∧
      ∀ x ∈ input, x = first ∨ less x first = false := by
  obtain ⟨hp, hs⟩ := h
  cases ho : output with
  | nil =>
    rw [ho] at hp
    exact absurd (List.Perm.eq_nil hp.symm) hne
  | cons f tl =>
    rw [ho] at hp hs
    rw [List.pairwise_cons] at hs
    refine ⟨f, List.getElem?_cons_zero, hp.subset (List.mem_cons_self _ _), ?_⟩
    intro x hx
    rcases List.mem_cons.mp (hp.symm.subset hx) with hx | hx
    · exact Or.inl hx
    · exact Or.inr (hs.1 x hx)

/-- C9: on a non-empty slice of durations `fastestDuration` and
`slowestDuration` return elements of the slice with
`fastest <= every element <= slowest`; and on a non-empty slice of samples,
whatever slice `sort.Slice` leaves within its contract (a sorted permutation,
ties in any order), `fastestSample` and `slowestSample` return samples of the
slice whose run time is at most, respectively at least, the run time of every
sample. -/
theorem fastest_slowest_bounds (durations : List Int)
    (sort : (Sample → Sample → Bool) → List Sample → List Sample) (samples : List Sample)
    (hd : durations ≠ []) (hs : samples ≠ [])
    (hsort : ∀ asc, SortSliceContract (sampleLess asc) samples (sort (sampleLess asc) samples)) :
    (∃ fastest slowest, fastestDuration durations = some fastest ∧
      slowestDuration durations = some slowest ∧
      fastest ∈ durations ∧ slowest ∈ durations ∧
      ∀ x ∈ durations, fastest ≤ x ∧ x ≤ slowest) ∧
    (∃ fastest slowest, fastestSample sort samples = some fastest ∧
      slowestSample sort samples = some slowest ∧
      fastest ∈ samples ∧ slowest ∈ samples ∧
      ∀ x ∈ samples, fastest.runTime ≤ x.runTime ∧ x.runTime ≤ slowest.runTime) := by
  constructor
  · obtain ⟨f, f1, f2, f3⟩ := insertionSort_first
      (fun a b : Int => if true then decide (a < b) else decide (a > b))
      (by intro a b; simp; omega) (by intro a b c; simp; omega) durations hd
    obtain ⟨s, s1, s2, s3⟩ := insertionSort_first
      (fun a b : Int => if false then decide (a < b) else decide (a > b))
      (by intro a b; simp; omega) (by intro a b c; simp; omega) durations hd
    refine ⟨f, s, f1, s1, f2, s2, ?_⟩
    intro x hx
    have h1 := f3 x hx
    have h2 := s3 x hx
    simp at h1 h2
    exact ⟨h1, h2⟩
  · obtain ⟨f, f1, f2, f3⟩ := contract_first _ _ _ (hsort true) hs
    obtain ⟨s, s1, s2, s3⟩ := contract_first _ _ _ (hsort false) hs
    refine ⟨f, s, f1, s1, f2, s2, ?_⟩
    intro x hx
    constructor
    · rcases f3 x hx with h | h
      · rw [h]
      · simpa [sampleLess] using h
    · rcases s3 x hx with h | h
      · rw [h]
      · simpa [sampleLess] using h

/-- Witness for C9: three durations, and three samples two of which tie for
the fastest run time, sorted by insertion sort. -/
theorem fastest_slowest_bounds_witness :
    (∀ asc, SortSliceContract (sampleLess asc)
      [(⟨⟨[], 1⟩, 5⟩ : Sample), ⟨⟨[], 2⟩, 7⟩, ⟨⟨[], 3⟩, 5⟩]
      (insertionSort (sampleLess asc) [(⟨⟨[], 1⟩, 5⟩ : Sample), ⟨⟨[], 2⟩, 7⟩, ⟨⟨[], 3⟩, 5⟩])) ∧
    ((∃ fastest slowest, fastestDuration [30, 10, 20] = some fastest ∧
      slowestDuration [30, 10, 20] = some slowest ∧
      fastest ∈ [30, 10, 20] ∧ slowest ∈ [30, 10, 20] ∧
      ∀ x ∈ [30, 10, 20], fastest ≤ x ∧ x ≤ slowest) ∧
    (∃ fastest slowest,
      fastestSample insertionSort [(⟨⟨[], 1⟩, 5⟩ : Sample), ⟨⟨[], 2⟩, 7⟩, ⟨⟨[], 3⟩, 5⟩] =
        some fastest ∧
      slowestSample insertionSort [(⟨⟨[], 1⟩, 5⟩ : Sample), ⟨⟨[], 2⟩, 7⟩, ⟨⟨[], 3⟩, 5⟩] =
        some slowest ∧
      fastest ∈ [(⟨⟨[], 1⟩, 5⟩ : Sample), ⟨⟨[], 2⟩, 7⟩, ⟨⟨[], 3⟩, 5⟩] ∧
      slowest ∈ [(⟨⟨[], 1⟩, 5⟩ : Sample), ⟨⟨[], 2⟩, 7⟩, ⟨⟨[], 3⟩, 5⟩] ∧
      ∀ x ∈ [(⟨⟨[], 1⟩, 5⟩ : Sample), ⟨⟨[], 2⟩, 7⟩, ⟨⟨[], 3⟩, 5⟩],
        fastest.runTime ≤ x.runTime ∧ x.runTime ≤ slowest.runTime)) :=
  ⟨fun asc => sampleLess_contract_insertionSort asc _,
    fastest_slowest_bounds [30, 10, 20] insertionSort
      [⟨⟨[], 1⟩, 5⟩, ⟨⟨[], 2⟩, 7⟩, ⟨⟨[], 3⟩, 5⟩] (by decide) (by decide)
      (fun asc => sampleLess_contract_insertionSort asc _)⟩

end Cryptarithm
